import Mathlib

/-!
# Verification of the skip list in `src/skiplist.py`

The Python code is a pointer-based skip list.  We embed it shallowly:

* the mutable heap of `_Node` objects becomes an explicit arena
  `nodes : List Node`, a node's identity being its index in the arena
  (Python's `is` becomes equality of indices);
* the sentinel header (whose `key`/`value` are never read) is kept as the
  bare field `headerForward`, and a traversal position is either the
  header or a node id (`Pos`);
* every `while` loop of the source gets explicit fuel; the fuel used by
  the operations is `s.nodes.length`, which is enough on every state the
  operations can actually reach (chains visit pairwise distinct nodes);
* `random.random() < self.p` becomes an oracle `draws : Nat → Bool`
  giving the outcome of each successive comparison with `p`;
* Python `None` stored as a value becomes `Option.none`, so a stored
  value has type `Option Int` and `search` — which returns either the
  stored value or `None` — returns `Option Int` as well, conflating the
  two exactly as the source does;
* `raise KeyError(key)` becomes `Except.error key`.

Keys are specialised to `Int` (the source compares them with `<`/`==`
only).
-/

/-- `_Node.__init__` (src/skiplist.py:4-11): a key, a value and a
`forward` array of length `level + 1`. -/
structure Node where
  key : Int
  value : Option Int
  forward : List (Option Nat)
deriving DecidableEq

/-- The mutable state of a `SkipList` object (src/skiplist.py:19-23):
`max_level`, the current `level`, the header's forward array (the header
carries no key/value) and the arena of allocated nodes.  The probability
`p` enters only through the boolean draw oracle, so it is not stored. -/
structure SkipList where
  max_level : Nat
  level : Nat
  headerForward : List (Option Nat)
  nodes : List Node
deriving DecidableEq

/-- `SkipList.__init__` (src/skiplist.py:19-23): level 0, a header with
`max_level + 1` empty forward slots, no nodes. -/
def mkSkipList (max_level : Nat) : SkipList :=
  { max_level := max_level
    level := 0
    headerForward := List.replicate (max_level + 1) none
    nodes := [] }

/-- A traversal position: the sentinel header or a real node (by id). -/
inductive Pos where
  | head : Pos
  | node : Nat → Pos
deriving DecidableEq

namespace SkipList

/-- Reading `x.forward[i]` at a position `x`.  An out-of-range index or a
dangling id reads as `none`; neither occurs in reachable executions. -/
def forwardAt (s : SkipList) (p : Pos) (i : Nat) : Option Nat :=
  match p with
  | .head => s.headerForward[i]?.getD none
  | .node id =>
    match s.nodes[id]? with
    | some n => n.forward[i]?.getD none
    | none => none

/-- The key of the node with id `id` (default `0` for a dangling id,
which reachable executions never produce). -/
def keyAt (s : SkipList) (id : Nat) : Int :=
  match s.nodes[id]? with
  | some n => n.key
  | none => 0

/-- The value of the node with id `id`. -/
def valueAt (s : SkipList) (id : Nat) : Option Int :=
  match s.nodes[id]? with
  | some n => n.value
  | none => none

/-- The level of the node with id `id`: its `forward` array has length
`heightOf + 1` (a `_Node(level, ...)` gets `level + 1` slots). -/
def heightOf (s : SkipList) (id : Nat) : Nat :=
  match s.nodes[id]? with
  | some n => n.forward.length - 1
  | none => 0

/-- Writing `x.forward[i] = v` at a position `x`. -/
def setForward (s : SkipList) (p : Pos) (i : Nat) (v : Option Nat) : SkipList :=
  match p with
  | .head => { s with headerForward := s.headerForward.set i v }
  | .node id =>
    match s.nodes[id]? with
    | some n => { s with nodes := s.nodes.set id { n with forward := n.forward.set i v } }
    | none => s

/-- The loop of `_random_level` (src/skiplist.py:26-30):
`while random.random() < self.p and lvl < self.max_level: lvl += 1`.
`draws j` is the outcome of the `j`-th comparison `random.random() < p`;
the fuel is the remaining headroom `max_level - lvl`, so the loop stops
exactly when a draw fails or `lvl` reaches `max_level`. -/
def randomLevelGo (draws : Nat → Bool) (idx lvl : Nat) : Nat → Nat
  | 0 => lvl
  | fuel + 1 => if draws idx then randomLevelGo draws (idx + 1) (lvl + 1) fuel else lvl

/-- `_random_level` (src/skiplist.py:26-30). -/
def _random_level (s : SkipList) (draws : Nat → Bool) : Nat :=
  randomLevelGo draws 0 0 s.max_level

/-- The inner loop of the scan (src/skiplist.py:40-41, 49-50):
`while x.forward[i] and x.forward[i].key < key: x = x.forward[i]`. -/
def walk (s : SkipList) (key : Int) (i : Nat) : Pos → Nat → Pos
  | x, 0 => x
  | x, fuel + 1 =>
    match s.forwardAt x i with
    | some nid =>
      match s.nodes[nid]? with
      | some n => if n.key < key then s.walk key i (.node nid) fuel else x
      | none => x
    | none => x

/-- Reading `update[i]`: entries never assigned are Python `None`,
modelled as `Option.none` (the code never dereferences such an entry). -/
def updAt (update : List (Option Pos)) (i : Nat) : Option Pos :=
  update[i]?.getD none

/-- The outer loop of `_find_updates` (src/skiplist.py:39-42):
`for i in range(self.level, -1, -1)`, carrying the position `x` down and
recording `update[i] = x` after the level-`i` walk. -/
def findUpdatesGo (s : SkipList) (key : Int) :
    Nat → Pos → List (Option Pos) → List (Option Pos)
  | 0, x, update => update.set 0 (some (s.walk key 0 x s.nodes.length))
  | i + 1, x, update =>
    let y := s.walk key (i + 1) x s.nodes.length
    s.findUpdatesGo key i y (update.set (i + 1) (some y))

/-- `_find_updates` (src/skiplist.py:32-43). -/
def _find_updates (s : SkipList) (key : Int) : List (Option Pos) :=
  s.findUpdatesGo key s.level .head (List.replicate (s.max_level + 1) none)

/-- The level loop of `search` (src/skiplist.py:48-50), which walks the
same path as `_find_updates` without recording predecessors. -/
def searchGo (s : SkipList) (key : Int) : Nat → Pos → Pos
  | 0, x => s.walk key 0 x s.nodes.length
  | i + 1, x => s.searchGo key i (s.walk key (i + 1) x s.nodes.length)

/-- `search` (src/skiplist.py:46-52):
`x = x.forward[0]; return x.value if x and x.key == key else None`.
The result is the stored value (itself possibly Python's `None`, i.e.
`none`) when the key is found, `none` otherwise. -/
def search (s : SkipList) (key : Int) : Option Int :=
  let x := s.searchGo key s.level .head
  match s.forwardAt x 0 with
  | some nid =>
    match s.nodes[nid]? with
    | some n => if n.key = key then n.value else none
    | none => none
  | none => none

/-- Reading `update[i].forward[i]` (a `none` entry would be a Python
`AttributeError`; the code only reads assigned entries). -/
def updForward (s : SkipList) (update : List (Option Pos)) (i : Nat) : Option Nat :=
  match updAt update i with
  | some p => s.forwardAt p i
  | none => none

/-- `for i in range(self.level + 1, new_level + 1): update[i] = self.header`
(src/skiplist.py:66-67); `lo` starts at `self.level + 1` and the count is
`new_level - self.level`. -/
def setHeadFrom (update : List (Option Pos)) (lo : Nat) : Nat → List (Option Pos)
  | 0 => update
  | n + 1 => setHeadFrom (update.set lo (some .head)) (lo + 1) n

/-- The splice loop of `insert` (src/skiplist.py:72-74):
`for i in range(new_level + 1): x.forward[i] = update[i].forward[i];
update[i].forward[i] = x`, threading the heap through each iteration. -/
def spliceGo (update : List (Option Pos)) (xid : Nat) :
    SkipList → Nat → Nat → SkipList
  | s, _, 0 => s
  | s, i, n + 1 =>
    match updAt update i with
    | some p =>
      let s1 := (s.setForward (.node xid) i (s.forwardAt p i)).setForward p i (some xid)
      spliceGo update xid s1 (i + 1) n
    | none => spliceGo update xid s (i + 1) n

/-- The new-node branch of `insert` (src/skiplist.py:62-74): draw a
level, extend `update` with the header on freshly activated levels,
raise `self.level`, allocate the node (its id is the arena size) and
splice it into levels `0 .. new_level`. -/
def insertNew (s : SkipList) (key : Int) (value : Option Int)
    (update : List (Option Pos)) (draws : Nat → Bool) : SkipList :=
  let new_level := s._random_level draws
  let update1 :=
    if s.level < new_level then setHeadFrom update (s.level + 1) (new_level - s.level)
    else update
  let s1 : SkipList := if s.level < new_level then { s with level := new_level } else s
  let xid := s1.nodes.length
  let s2 := { s1 with
    nodes := s1.nodes ++ [{ key := key, value := value,
                            forward := List.replicate (new_level + 1) none }] }
  spliceGo update1 xid s2 0 (new_level + 1)

/-- `insert` (src/skiplist.py:54-74): if the node after the level-0
predecessor holds the key, overwrite its value in place; otherwise
splice in a new node. -/
def insert (s : SkipList) (key : Int) (value : Option Int) (draws : Nat → Bool) : SkipList :=
  let update := s._find_updates key
  match s.updForward update 0 with
  | some nid =>
    match s.nodes[nid]? with
    | some n =>
      if n.key = key then { s with nodes := s.nodes.set nid { n with value := value } }
      else s.insertNew key value update draws
    | none => s.insertNew key value update draws
  | none => s.insertNew key value update draws

/-- The unlink loop of `delete` (src/skiplist.py:83-85):
`for i in range(self.level + 1): if update[i].forward[i] is x:
update[i].forward[i] = x.forward[i]`. -/
def unlinkGo (update : List (Option Pos)) (xid : Nat) :
    SkipList → Nat → Nat → SkipList
  | s, _, 0 => s
  | s, i, n + 1 =>
    let s1 :=
      match updAt update i with
      | some p =>
        if s.forwardAt p i = some xid then s.setForward p i (s.forwardAt (.node xid) i)
        else s
      | none => s
    unlinkGo update xid s1 (i + 1) n

/-- The shrink loop of `delete` (src/skiplist.py:88-89):
`while self.level > 0 and self.header.forward[self.level] is None:
self.level -= 1`, computed as the new value of `self.level`. -/
def shrinkLevel (s : SkipList) : Nat → Nat
  | 0 => 0
  | l + 1 => if s.forwardAt .head (l + 1) = none then s.shrinkLevel l else l + 1

/-- `delete` (src/skiplist.py:76-90), returning the boolean result
together with the state after the call. -/
def delete (s : SkipList) (key : Int) : Bool × SkipList :=
  let update := s._find_updates key
  match s.updForward update 0 with
  | some nid =>
    match s.nodes[nid]? with
    | some n =>
      if n.key = key then
        let s1 := unlinkGo update nid s 0 (s.level + 1)
        (true, { s1 with level := s1.shrinkLevel s.level })
      else (false, s)
    | none => (false, s)
  | none => (false, s)

/-- `__contains__` (src/skiplist.py:93-94): `self.search(key) is not None`. -/
def containsKey (s : SkipList) (key : Int) : Bool :=
  (s.search key).isSome

/-- `__setitem__` (src/skiplist.py:96-97): plain `insert`. -/
def setItem (s : SkipList) (key : Int) (value : Option Int) (draws : Nat → Bool) : SkipList :=
  s.insert key value draws

/-- `__getitem__` (src/skiplist.py:99-103): `raise KeyError(key)` when
`search` returns `None`, otherwise the value. -/
def getItem (s : SkipList) (key : Int) : Except Int Int :=
  match s.search key with
  | some v => Except.ok v
  | none => Except.error key

/-- `__delitem__` (src/skiplist.py:105-107): `raise KeyError(key)` when
`delete` returns `False`; otherwise the state after the deletion. -/
def delItem (s : SkipList) (key : Int) : Except Int SkipList :=
  let r := s.delete key
  if r.1 then Except.ok r.2 else Except.error key

/-- The counting loop of `__len__` (src/skiplist.py:109-115). -/
def chainCount (s : SkipList) : Option Nat → Nat → Nat
  | _, 0 => 0
  | none, _ + 1 => 0
  | some nid, fuel + 1 => 1 + s.chainCount (s.forwardAt (.node nid) 0) fuel

/-- `__len__` (src/skiplist.py:109-115): count the level-0 chain. -/
def len (s : SkipList) : Nat :=
  s.chainCount (s.forwardAt .head 0) s.nodes.length

/-- The collection loop of `display` (src/skiplist.py:117-123). -/
def chainPairs (s : SkipList) : Option Nat → Nat → List (Int × Option Int)
  | _, 0 => []
  | none, _ + 1 => []
  | some nid, fuel + 1 =>
    match s.nodes[nid]? with
    | some n => (n.key, n.value) :: s.chainPairs (n.forward[0]?.getD none) fuel
    | none => []

/-- `display` (src/skiplist.py:117-123), returning the level-0 list of
`(key, value)` pairs instead of printing it. -/
def display (s : SkipList) : List (Int × Option Int) :=
  s.chainPairs (s.forwardAt .head 0) s.nodes.length

/-- The ids reached by following `forward[i]` from a starting link,
with fuel (observation function used to state the level invariants). -/
def chainIds (s : SkipList) (i : Nat) : Option Nat → Nat → List Nat
  | _, 0 => []
  | none, _ + 1 => []
  | some nid, fuel + 1 => nid :: s.chainIds i (s.forwardAt (.node nid) i) fuel

/-- The ids reached by following `forward[i]` from the header. -/
def levelIds (s : SkipList) (i : Nat) : List Nat :=
  s.chainIds i (s.forwardAt .head i) s.nodes.length

/-- The keys reached by following `forward[i]` from the header. -/
def levelKeys (s : SkipList) (i : Nat) : List Int :=
  (s.levelIds i).map s.keyAt

end SkipList

/-- States reachable from a freshly constructed skip list by any
sequence of `insert` and `delete` calls (with arbitrary random draws). -/
inductive Reachable : SkipList → Prop where
  | init : ∀ max_level, Reachable (mkSkipList max_level)
  | ins : ∀ {s} (key : Int) (value : Option Int) (draws : Nat → Bool),
      Reachable s → Reachable (s.insert key value draws)
  | del : ∀ {s} (key : Int), Reachable s → Reachable (s.delete key).2

/-!
## Basic lemmas about the heap operations

How `setForward`, node allocation and value overwrite affect the
accessors.  Only the targeted forward slot changes; keys, values,
heights and all lengths are preserved.
-/

namespace SkipList

theorem max_level_setForward (s : SkipList) (p : Pos) (i : Nat) (v : Option Nat) :
    (s.setForward p i v).max_level = s.max_level := by
  cases p with
  | head => rfl
  | node id => cases h : s.nodes[id]? <;> simp [setForward, h]

theorem level_setForward (s : SkipList) (p : Pos) (i : Nat) (v : Option Nat) :
    (s.setForward p i v).level = s.level := by
  cases p with
  | head => rfl
  | node id => cases h : s.nodes[id]? <;> simp [setForward, h]

theorem nodes_length_setForward (s : SkipList) (p : Pos) (i : Nat) (v : Option Nat) :
    (s.setForward p i v).nodes.length = s.nodes.length := by
  cases p with
  | head => rfl
  | node id => cases h : s.nodes[id]? <;> simp [setForward, h]

theorem headerForward_length_setForward (s : SkipList) (p : Pos) (i : Nat) (v : Option Nat) :
    (s.setForward p i v).headerForward.length = s.headerForward.length := by
  cases p with
  | head => simp [setForward]
  | node id => cases h : s.nodes[id]? <;> simp [setForward, h]

theorem keyAt_setForward (s : SkipList) (p : Pos) (i : Nat) (v : Option Nat) (id' : Nat) :
    (s.setForward p i v).keyAt id' = s.keyAt id' := by
  cases p with
  | head => rfl
  | node id =>
    cases h : s.nodes[id]? with
    | none => simp [setForward, h]
    | some n =>
      have hlt : id < s.nodes.length := (List.getElem?_eq_some.mp h).1
      by_cases hid : id = id'
      · subst hid
        simp [setForward, h, keyAt, List.getElem?_set_self hlt]
      · simp [setForward, h, keyAt, List.getElem?_set_ne hid]

theorem valueAt_setForward (s : SkipList) (p : Pos) (i : Nat) (v : Option Nat) (id' : Nat) :
    (s.setForward p i v).valueAt id' = s.valueAt id' := by
  cases p with
  | head => rfl
  | node id =>
    cases h : s.nodes[id]? with
    | none => simp [setForward, h]
    | some n =>
      have hlt : id < s.nodes.length := (List.getElem?_eq_some.mp h).1
      by_cases hid : id = id'
      · subst hid
        simp [setForward, h, valueAt, List.getElem?_set_self hlt]
      · simp [setForward, h, valueAt, List.getElem?_set_ne hid]

theorem forwardLen_setForward (s : SkipList) (p : Pos) (i : Nat) (v : Option Nat) (id' : Nat) :
    ((s.setForward p i v).nodes[id']?).map (fun n => n.forward.length) =
      (s.nodes[id']?).map (fun n => n.forward.length) := by
  cases p with
  | head => rfl
  | node id =>
    cases h : s.nodes[id]? with
    | none => simp [setForward, h]
    | some n =>
      have hlt : id < s.nodes.length := (List.getElem?_eq_some.mp h).1
      by_cases hid : id = id'
      · subst hid
        simp [setForward, h, List.getElem?_set_self hlt]
      · simp [setForward, h, List.getElem?_set_ne hid]

theorem heightOf_setForward (s : SkipList) (p : Pos) (i : Nat) (v : Option Nat) (id' : Nat) :
    (s.setForward p i v).heightOf id' = s.heightOf id' := by
  have h := forwardLen_setForward s p i v id'
  unfold heightOf
  cases h1 : (s.setForward p i v).nodes[id']? with
  | none =>
    rw [h1] at h
    cases h2 : s.nodes[id']? with
    | none => rfl
    | some n => rw [h2] at h; simp at h
  | some n' =>
    rw [h1] at h
    cases h2 : s.nodes[id']? with
    | none => rw [h2] at h; simp at h
    | some n => rw [h2] at h; simp at h; simp [h]

/-- The forward slot `(p, i)` exists in the heap (so that a write to it
takes effect). -/
def slotOk (s : SkipList) (p : Pos) (i : Nat) : Prop :=
  match p with
  | .head => i < s.headerForward.length
  | .node id => ∃ n, s.nodes[id]? = some n ∧ i < n.forward.length

theorem slotOk_of_forwardAt_eq_some {s : SkipList} {p : Pos} {i : Nat} {y : Nat}
    (h : s.forwardAt p i = some y) : s.slotOk p i := by
  cases p with
  | head =>
    by_cases hl : i < s.headerForward.length
    · exact hl
    · rw [forwardAt, List.getElem?_eq_none (Nat.le_of_not_lt hl)] at h
      simp at h
  | node id =>
    cases hn : s.nodes[id]? with
    | none => simp [forwardAt, hn] at h
    | some n =>
      refine ⟨n, hn, ?_⟩
      cases hf : n.forward[i]? with
      | none => simp [forwardAt, hn, hf] at h
      | some z => exact (List.getElem?_eq_some.mp hf).1

theorem forwardAt_setForward_self {s : SkipList} {p : Pos} {i : Nat} (v : Option Nat)
    (h : s.slotOk p i) : (s.setForward p i v).forwardAt p i = v := by
  cases p with
  | head =>
    have hl : i < s.headerForward.length := h
    simp [setForward, forwardAt, List.getElem?_set_self hl]
  | node id =>
    obtain ⟨n, hn, hl⟩ := h
    have hlt : id < s.nodes.length := (List.getElem?_eq_some.mp hn).1
    simp [setForward, hn, forwardAt, List.getElem?_set_self hlt, List.getElem?_set_self hl]

theorem forwardAt_setForward_ne {s : SkipList} {p q : Pos} {i j : Nat} (v : Option Nat)
    (h : q ≠ p ∨ j ≠ i) : (s.setForward p i v).forwardAt q j = s.forwardAt q j := by
  cases p with
  | head =>
    cases q with
    | head =>
      have hj : j ≠ i := by
        rcases h with h | h
        · exact absurd rfl h
        · exact h
      simp [setForward, forwardAt, List.getElem?_set_ne (fun hh => hj hh.symm)]
    | node id' => simp [setForward, forwardAt]
  | node id =>
    cases hn : s.nodes[id]? with
    | none => simp [setForward, hn]
    | some n =>
      have hlt : id < s.nodes.length := (List.getElem?_eq_some.mp hn).1
      cases q with
      | head => simp [setForward, hn, forwardAt]
      | node id' =>
        by_cases hid : id = id'
        · subst hid
          have hj : j ≠ i := by
            rcases h with h | h
            · exact absurd rfl h
            · exact h
          simp [setForward, hn, forwardAt, List.getElem?_set_self hlt,
            List.getElem?_set_ne (fun hh => hj hh.symm)]
        · simp [setForward, hn, forwardAt, List.getElem?_set_ne hid]

theorem slotOk_iff_setForward (s : SkipList) (p q : Pos) (i j : Nat) (v : Option Nat) :
    (s.setForward p i v).slotOk q j ↔ s.slotOk q j := by
  cases q with
  | head =>
    show j < _ ↔ j < _
    rw [headerForward_length_setForward]
  | node id' =>
    constructor
    · rintro ⟨n', hn', hl'⟩
      have h := forwardLen_setForward s p i v id'
      rw [hn'] at h
      cases h2 : s.nodes[id']? with
      | none => rw [h2] at h; simp at h
      | some n =>
        rw [h2] at h
        simp at h
        exact ⟨n, h2, by rw [h] at hl'; exact hl'⟩
    · rintro ⟨n, hn, hl⟩
      have h := forwardLen_setForward s p i v id'
      rw [hn] at h
      cases h2 : (s.setForward p i v).nodes[id']? with
      | none => rw [h2] at h; simp at h
      | some n' =>
        rw [h2] at h
        simp at h
        exact ⟨n', h2, by rw [h]; exact hl⟩

/-!
## Chains of forward links

`Links s i p l q`: starting at position `p` and repeatedly following
`forward[i]`, the list of ids visited is `l`, ending at position `q`.
`IsChain` adds that the chain is maximal (the last position has no
forward link at level `i`).
-/

inductive Links (s : SkipList) (i : Nat) : Pos → List Nat → Pos → Prop where
  | nil : ∀ p, Links s i p [] p
  | cons : ∀ {p : Pos} {id : Nat} {l : List Nat} {q : Pos},
      s.forwardAt p i = some id → Links s i (.node id) l q → Links s i p (id :: l) q

/-- The position after following the ids `l` from `p`. -/
def lastPos : Pos → List Nat → Pos
  | p, [] => p
  | _, id :: l => lastPos (.node id) l

theorem lastPos_append (p : Pos) (a b : List Nat) :
    lastPos p (a ++ b) = lastPos (lastPos p a) b := by
  induction a generalizing p with
  | nil => rfl
  | cons x xs ih => simp only [List.cons_append, lastPos]; exact ih (.node x)

theorem lastPos_cases (p : Pos) (l : List Nat) :
    lastPos p l = p ∨ ∃ id ∈ l, lastPos p l = .node id := by
  induction l generalizing p with
  | nil => exact Or.inl rfl
  | cons x xs ih =>
    rcases ih (.node x) with h | ⟨id, hid, h⟩
    · exact Or.inr ⟨x, List.mem_cons_self x xs, h⟩
    · exact Or.inr ⟨id, List.mem_cons_of_mem x hid, h⟩

theorem Links.eq_lastPos {s : SkipList} {i : Nat} {p : Pos} {l : List Nat} {q : Pos}
    (h : Links s i p l q) : q = lastPos p l := by
  induction h with
  | nil => rfl
  | cons hf _ ih => simpa [lastPos] using ih

theorem Links.append {s : SkipList} {i : Nat} {a : List Nat} :
    ∀ {p q r : Pos} {b : List Nat},
      Links s i p a q → Links s i q b r → Links s i p (a ++ b) r := by
  induction a with
  | nil =>
    intro p q r b h1 h2
    cases h1
    exact h2
  | cons x xs ih =>
    intro p q r b h1 h2
    cases h1 with
    | cons hf hrest => exact Links.cons hf (ih hrest h2)

theorem Links.append_split {s : SkipList} {i : Nat} {a : List Nat} :
    ∀ {p r : Pos} {b : List Nat}, Links s i p (a ++ b) r →
      Links s i p a (lastPos p a) ∧ Links s i (lastPos p a) b r := by
  induction a with
  | nil => exact fun h => ⟨Links.nil _, h⟩
  | cons x xs ih =>
    intro p r b h
    cases h with
    | cons hf hrest =>
      obtain ⟨h1, h2⟩ := ih hrest
      exact ⟨Links.cons hf h1, h2⟩

/-- A maximal chain: following `forward[i]` from `p` visits exactly `l`
and then stops. -/
def IsChain (s : SkipList) (i : Nat) (p : Pos) (l : List Nat) : Prop :=
  Links s i p l (lastPos p l) ∧ s.forwardAt (lastPos p l) i = none

theorem IsChain.cons_elim {s : SkipList} {i : Nat} {p : Pos} {id : Nat} {l : List Nat}
    (h : IsChain s i p (id :: l)) :
    s.forwardAt p i = some id ∧ IsChain s i (.node id) l := by
  obtain ⟨hl, he⟩ := h
  cases hl with
  | cons hf hrest => exact ⟨hf, hrest, he⟩

theorem IsChain.append_right {s : SkipList} {i : Nat} {p : Pos} {a b : List Nat}
    (h : IsChain s i p (a ++ b)) : IsChain s i (lastPos p a) b := by
  obtain ⟨hl, he⟩ := h
  rw [lastPos_append] at hl he
  exact ⟨(Links.append_split hl).2, he⟩

theorem IsChain.head?_eq {s : SkipList} {i : Nat} {p : Pos} {l : List Nat}
    (h : IsChain s i p l) : s.forwardAt p i = l.head? := by
  cases l with
  | nil => exact h.2
  | cons x xs => exact (IsChain.cons_elim h).1

/-- Transporting a chain across a state change that does not affect any
forward slot at level `i`. -/
theorem Links.of_forward_eq {s s' : SkipList} {i : Nat}
    (hagree : ∀ p', s'.forwardAt p' i = s.forwardAt p' i) :
    ∀ {p q : Pos} {l : List Nat}, Links s i p l q → Links s' i p l q := by
  intro p q l h
  induction h with
  | nil => exact Links.nil _
  | cons hf _ ih => exact Links.cons ((hagree _).trans hf) ih

theorem IsChain.of_forward_agree {s s' : SkipList} {i : Nat}
    (hagree : ∀ p', s'.forwardAt p' i = s.forwardAt p' i)
    {p : Pos} {l : List Nat} (h : IsChain s i p l) : IsChain s' i p l :=
  ⟨Links.of_forward_eq hagree h.1, (hagree _).trans h.2⟩

/-- Transporting a chain when the new state agrees with the old one at
the start position and at every visited id except possibly the last
(the slots a `Links` derivation actually reads). -/
theorem Links.congr_dropLast {s s' : SkipList} {i : Nat} :
    ∀ {l : List Nat} {p q : Pos}, Links s i p l q →
      s'.forwardAt p i = s.forwardAt p i →
      (∀ id ∈ l.dropLast, s'.forwardAt (.node id) i = s.forwardAt (.node id) i) →
      Links s' i p l q := by
  intro l
  induction l with
  | nil =>
    intro p q h _ _
    cases h
    exact Links.nil _
  | cons x xs ih =>
    intro p q h hp hmem
    cases h with
    | cons hf hrest =>
      refine Links.cons (hp.trans hf) ?_
      cases xs with
      | nil =>
        cases hrest
        exact Links.nil _
      | cons y ys =>
        refine ih hrest ?_ ?_
        · exact hmem x (by rw [List.dropLast_cons₂]; exact List.mem_cons_self _ _)
        · intro id hid
          exact hmem id (by rw [List.dropLast_cons₂]; exact List.mem_cons_of_mem _ hid)

/-!
## The scan loops characterised on chains
-/

theorem keyAt_eq_of_mem {s : SkipList} {id : Nat} {n : Node}
    (hn : s.nodes[id]? = some n) : s.keyAt id = n.key := by
  simp [keyAt, hn]

theorem exists_node_of_lt {s : SkipList} {id : Nat} (h : id < s.nodes.length) :
    ∃ n, s.nodes[id]? = some n :=
  ⟨s.nodes[id], List.getElem?_eq_getElem h⟩

/-- The inner `while` loop: on a maximal chain `l` whose ids are valid,
with enough fuel, the walk stops at the last position whose key is
(still) less than the target. -/
theorem walk_eq_takeWhile (s : SkipList) (key : Int) (i : Nat) :
    ∀ (l : List Nat) (p : Pos) (fuel : Nat), IsChain s i p l →
      (∀ id ∈ l, id < s.nodes.length) → l.length ≤ fuel →
      s.walk key i p fuel = lastPos p (l.takeWhile (fun id => decide (s.keyAt id < key))) := by
  intro l
  induction l with
  | nil =>
    intro p fuel hch _ _
    have hf : s.forwardAt p i = none := hch.2
    cases fuel with
    | zero => rfl
    | succ m => simp [walk, hf, lastPos]
  | cons id l ih =>
    intro p fuel hch hbd hfuel
    obtain ⟨hf, hch'⟩ := IsChain.cons_elim hch
    cases fuel with
    | zero => exact absurd hfuel (by simp)
    | succ m =>
      obtain ⟨n, hn⟩ := exists_node_of_lt (hbd id (List.mem_cons_self id l))
      have hkey : s.keyAt id = n.key := keyAt_eq_of_mem hn
      by_cases hlt : n.key < key
      · have ht : List.takeWhile (fun a => decide (s.keyAt a < key)) (id :: l) =
            id :: List.takeWhile (fun a => decide (s.keyAt a < key)) l := by
          simp [List.takeWhile_cons, hkey, hlt]
        rw [ht]
        simp only [walk, hf, hn, if_pos hlt, lastPos]
        exact ih (.node id) m hch' (fun a ha => hbd a (List.mem_cons_of_mem id ha))
          (Nat.le_of_succ_le_succ hfuel)
      · have ht : List.takeWhile (fun a => decide (s.keyAt a < key)) (id :: l) = [] := by
          simp [List.takeWhile_cons, hkey, hlt]
        rw [ht]
        simp [walk, hf, hn, if_neg hlt, lastPos]

/-- The `__len__` loop counts exactly the chain it is started on. -/
theorem chainCount_eq (s : SkipList) :
    ∀ (l : List Nat) (p : Pos) (fuel : Nat), IsChain s 0 p l → l.length ≤ fuel →
      s.chainCount (s.forwardAt p 0) fuel = l.length := by
  intro l
  induction l with
  | nil =>
    intro p fuel hch _
    have h0 : s.forwardAt p 0 = none := hch.2
    rw [h0]
    cases fuel <;> rfl
  | cons id l ih =>
    intro p fuel hch hfuel
    obtain ⟨hf, hch'⟩ := IsChain.cons_elim hch
    cases fuel with
    | zero => exact absurd hfuel (by simp)
    | succ m =>
      rw [hf]
      simp only [chainCount, List.length_cons]
      rw [ih (.node id) m hch' (Nat.le_of_succ_le_succ hfuel)]
      omega

/-- The `display` loop collects the `(key, value)` pairs of the chain. -/
theorem chainPairs_eq (s : SkipList) :
    ∀ (l : List Nat) (p : Pos) (fuel : Nat), IsChain s 0 p l →
      (∀ id ∈ l, id < s.nodes.length) → l.length ≤ fuel →
      s.chainPairs (s.forwardAt p 0) fuel = l.map (fun id => (s.keyAt id, s.valueAt id)) := by
  intro l
  induction l with
  | nil =>
    intro p fuel hch _ _
    have h0 : s.forwardAt p 0 = none := hch.2
    rw [h0]
    cases fuel <;> rfl
  | cons id l ih =>
    intro p fuel hch hbd hfuel
    obtain ⟨hf, hch'⟩ := IsChain.cons_elim hch
    cases fuel with
    | zero => exact absurd hfuel (by simp)
    | succ m =>
      obtain ⟨n, hn⟩ := exists_node_of_lt (hbd id (List.mem_cons_self id l))
      rw [hf]
      simp only [chainPairs, hn, List.map_cons]
      have hfwd : n.forward[0]?.getD none = s.forwardAt (.node id) 0 := by
        simp [forwardAt, hn]
      rw [hfwd, ih (.node id) m hch' (fun a ha => hbd a (List.mem_cons_of_mem id ha))
        (Nat.le_of_succ_le_succ hfuel)]
      simp [keyAt, valueAt, hn]

/-- The level-`i` id collection follows exactly the chain. -/
theorem chainIds_eq (s : SkipList) (i : Nat) :
    ∀ (l : List Nat) (p : Pos) (fuel : Nat), IsChain s i p l → l.length ≤ fuel →
      s.chainIds i (s.forwardAt p i) fuel = l := by
  intro l
  induction l with
  | nil =>
    intro p fuel hch _
    have h0 : s.forwardAt p i = none := hch.2
    rw [h0]
    cases fuel <;> rfl
  | cons id l ih =>
    intro p fuel hch hfuel
    obtain ⟨hf, hch'⟩ := IsChain.cons_elim hch
    cases fuel with
    | zero => exact absurd hfuel (by simp)
    | succ m =>
      rw [hf]
      simp only [chainIds]
      rw [ih (.node id) m hch' (Nat.le_of_succ_le_succ hfuel)]

/-!
## The representation invariant

`Rep s live` says the heap `s` is a well-formed skip list whose nodes,
in strictly increasing key order, are the ids in `live`.
-/

/-- The ids of `live` that participate in level `i`. -/
def filterLevel (s : SkipList) (i : Nat) (live : List Nat) : List Nat :=
  live.filter (fun id => decide (i ≤ s.heightOf id))

/-- The largest node height occurring in `live` (`0` if empty). -/
def maxH (s : SkipList) (live : List Nat) : Nat :=
  live.foldr (fun id m => max (s.heightOf id) m) 0

structure Rep (s : SkipList) (live : List Nat) : Prop where
  nodup : live.Nodup
  bounded : ∀ id ∈ live, id < s.nodes.length
  sorted : live.Pairwise (fun a b => s.keyAt a < s.keyAt b)
  hbound : ∀ id ∈ live, s.heightOf id ≤ s.max_level
  flen : ∀ id ∈ live, ∀ n, s.nodes[id]? = some n → n.forward.length = s.heightOf id + 1
  levelEq : s.level = s.maxH live
  hlen : s.headerForward.length = s.max_level + 1
  chains : ∀ i, i ≤ s.max_level → IsChain s i .head (s.filterLevel i live)

theorem le_maxH_of_mem {s : SkipList} {live : List Nat} {id : Nat} (h : id ∈ live) :
    s.heightOf id ≤ s.maxH live := by
  induction live with
  | nil => cases h
  | cons x xs ih =>
    rcases List.mem_cons.mp h with h | h
    · subst h; exact Nat.le_max_left _ _
    · exact Nat.le_trans (ih h) (Nat.le_max_right _ _)

theorem maxH_le {s : SkipList} {live : List Nat} {m : Nat}
    (h : ∀ id ∈ live, s.heightOf id ≤ m) : s.maxH live ≤ m := by
  induction live with
  | nil => exact Nat.zero_le m
  | cons x xs ih =>
    exact Nat.max_le.mpr ⟨h x (List.mem_cons_self x xs),
      ih (fun id hid => h id (List.mem_cons_of_mem x hid))⟩

theorem maxH_attained {s : SkipList} {live : List Nat} (h : live ≠ []) :
    ∃ id ∈ live, s.maxH live = s.heightOf id := by
  induction live with
  | nil => exact absurd rfl h
  | cons x xs ih =>
    cases xs with
    | nil => exact ⟨x, List.mem_cons_self x [], by simp [maxH]⟩
    | cons y ys =>
      obtain ⟨id, hid, heq⟩ := ih (by simp)
      rcases Nat.le_total (s.heightOf x) (s.maxH (y :: ys)) with hle | hle
      · refine ⟨id, List.mem_cons_of_mem x hid, ?_⟩
        show max (s.heightOf x) (s.maxH (y :: ys)) = _
        rw [Nat.max_eq_right hle, heq]
      · refine ⟨x, List.mem_cons_self x _, ?_⟩
        show max (s.heightOf x) (s.maxH (y :: ys)) = _
        rw [Nat.max_eq_left hle]

theorem maxH_append (s : SkipList) (a b : List Nat) :
    s.maxH (a ++ b) = max (s.maxH a) (s.maxH b) := by
  induction a with
  | nil => simp [maxH]
  | cons x xs ih =>
    show max _ (s.maxH (xs ++ b)) = max (max _ (s.maxH xs)) _
    rw [ih, Nat.max_assoc]

theorem maxH_congr {s s' : SkipList} {live : List Nat}
    (h : ∀ id ∈ live, s'.heightOf id = s.heightOf id) : s'.maxH live = s.maxH live := by
  induction live with
  | nil => rfl
  | cons x xs ih =>
    have h1 := h x (List.mem_cons_self x xs)
    have h2 := ih (fun id hid => h id (List.mem_cons_of_mem x hid))
    simp only [maxH, List.foldr_cons] at h2 ⊢
    rw [h1, h2]

theorem filterLevel_congr {s s' : SkipList} {live : List Nat} (i : Nat)
    (h : ∀ id ∈ live, s'.heightOf id = s.heightOf id) :
    s'.filterLevel i live = s.filterLevel i live := by
  unfold filterLevel
  apply List.filter_congr
  intro id hid
  rw [h id hid]

theorem filterLevel_sublist (s : SkipList) (i : Nat) (live : List Nat) :
    (s.filterLevel i live).Sublist live :=
  List.filter_sublist live

theorem mem_filterLevel {s : SkipList} {i : Nat} {live : List Nat} {id : Nat} :
    id ∈ s.filterLevel i live ↔ id ∈ live ∧ i ≤ s.heightOf id := by
  simp [filterLevel]

theorem filterLevel_eq_nil_of_maxH_lt {s : SkipList} {i : Nat} {live : List Nat}
    (h : s.maxH live < i) : s.filterLevel i live = [] := by
  rw [filterLevel, List.filter_eq_nil]
  intro id hid
  simp only [decide_eq_true_eq]
  intro hle
  exact absurd (Nat.le_trans hle (le_maxH_of_mem hid)) (Nat.not_le_of_lt h)

theorem Rep.live_length_le {s : SkipList} {live : List Nat} (h : Rep s live) :
    live.length ≤ s.nodes.length := by
  classical
  have h1 : live.toFinset.card = live.length := List.toFinset_card_of_nodup h.nodup
  have h2 : live.toFinset ⊆ Finset.range s.nodes.length := by
    intro id hid
    exact Finset.mem_range.mpr (h.bounded id (List.mem_toFinset.mp hid))
  have := Finset.card_le_card h2
  rw [h1, Finset.card_range] at this
  exact this

theorem Rep.level_le {s : SkipList} {live : List Nat} (h : Rep s live) :
    s.level ≤ s.max_level := by
  rw [h.levelEq]
  exact maxH_le h.hbound

theorem Rep.chain_length_le {s : SkipList} {live : List Nat} (h : Rep s live) (i : Nat) :
    (s.filterLevel i live).length ≤ s.nodes.length :=
  Nat.le_trans (List.Sublist.length_le (filterLevel_sublist s i live)) h.live_length_le

theorem Rep.chain_bounded {s : SkipList} {live : List Nat} (h : Rep s live) (i : Nat) :
    ∀ id ∈ s.filterLevel i live, id < s.nodes.length :=
  fun id hid => h.bounded id ((filterLevel_sublist s i live).mem hid)

theorem Rep.chain_sorted {s : SkipList} {live : List Nat} (h : Rep s live) (i : Nat) :
    (s.filterLevel i live).Pairwise (fun a b => s.keyAt a < s.keyAt b) :=
  List.Pairwise.sublist (filterLevel_sublist s i live) h.sorted

theorem Rep.chain_nodup {s : SkipList} {live : List Nat} (h : Rep s live) (i : Nat) :
    (s.filterLevel i live).Nodup :=
  List.Nodup.sublist (filterLevel_sublist s i live) h.nodup

theorem Rep.forwardAt_head {s : SkipList} {live : List Nat} (h : Rep s live) {i : Nat}
    (hi : i ≤ s.max_level) : s.forwardAt .head i = (s.filterLevel i live).head? :=
  IsChain.head?_eq (h.chains i hi)

theorem forwardAt_head_none_of_max_lt {s : SkipList} {i : Nat}
    (hlen : s.headerForward.length = s.max_level + 1) (hi : s.max_level < i) :
    s.forwardAt .head i = none := by
  rw [forwardAt, List.getElem?_eq_none (by omega)]
  rfl

/-!
## Sorted-list helpers and predecessor positions
-/

theorem takeWhile_eq_filter_sorted {s : SkipList} {key : Int} :
    ∀ {l : List Nat}, l.Pairwise (fun a b => s.keyAt a < s.keyAt b) →
      l.takeWhile (fun a => decide (s.keyAt a < key)) =
        l.filter (fun a => decide (s.keyAt a < key)) := by
  intro l
  induction l with
  | nil => intro _; rfl
  | cons x xs ih =>
    intro hp
    obtain ⟨hx, hxs⟩ := List.pairwise_cons.mp hp
    by_cases hlt : s.keyAt x < key
    · simp [List.takeWhile_cons, List.filter_cons, hlt, ih hxs]
    · have hnil : xs.filter (fun a => decide (s.keyAt a < key)) = [] := by
        rw [List.filter_eq_nil]
        intro b hb
        simp only [decide_eq_true_eq]
        exact fun hbk => hlt (lt_trans (hx b hb) hbk)
      simp [List.takeWhile_cons, List.filter_cons, hlt, hnil]

theorem dropWhile_eq_filter_sorted {s : SkipList} {key : Int} :
    ∀ {l : List Nat}, l.Pairwise (fun a b => s.keyAt a < s.keyAt b) →
      l.dropWhile (fun a => decide (s.keyAt a < key)) =
        l.filter (fun a => decide (key ≤ s.keyAt a)) := by
  intro l
  induction l with
  | nil => intro _; rfl
  | cons x xs ih =>
    intro hp
    obtain ⟨hx, hxs⟩ := List.pairwise_cons.mp hp
    by_cases hlt : s.keyAt x < key
    · have hko : ¬ key ≤ s.keyAt x := not_le.mpr hlt
      simp [List.dropWhile_cons, List.filter_cons, hlt, hko, ih hxs]
    · have hke : key ≤ s.keyAt x := not_lt.mp hlt
      have hall : xs.filter (fun a => decide (key ≤ s.keyAt a)) = xs := by
        rw [List.filter_eq_self]
        intro b hb
        simp only [decide_eq_true_eq]
        exact le_trans hke (le_of_lt (hx b hb))
      simp [List.dropWhile_cons, List.filter_cons, hlt, hke, hall]

theorem takeWhile_append_all {α : Type} {p : α → Bool} :
    ∀ {d₁ : List α} {a : α} {d₂ : List α}, (∀ b ∈ d₁, p b = true) → p a = true →
      (d₁ ++ a :: d₂).takeWhile p = d₁ ++ a :: d₂.takeWhile p := by
  intro d₁
  induction d₁ with
  | nil =>
    intro a d₂ _ ha
    simp [List.takeWhile_cons, ha]
  | cons x xs ih =>
    intro a d₂ hall ha
    have hx : p x = true := hall x (List.mem_cons_self x xs)
    simp only [List.cons_append, List.takeWhile_cons, hx, if_true]
    rw [ih (fun b hb => hall b (List.mem_cons_of_mem x hb)) ha]

theorem lastPos_cons_mem (x : Nat) (l : List Nat) (p : Pos) :
    ∃ id ∈ x :: l, lastPos p (x :: l) = .node id := by
  induction l generalizing x p with
  | nil => exact ⟨x, List.mem_cons_self x [], rfl⟩
  | cons y ys ih =>
    obtain ⟨id, hid, heq⟩ := ih y (.node x)
    exact ⟨id, List.mem_cons_of_mem x hid, heq⟩

/-- The ids before the target key on the level-`i` chain. -/
def predList (s : SkipList) (key : Int) (i : Nat) (live : List Nat) : List Nat :=
  (s.filterLevel i live).takeWhile (fun a => decide (s.keyAt a < key))

/-- The level-`i` predecessor position for the target key (the position
`update[i]` receives in `_find_updates`). -/
def predPos (s : SkipList) (key : Int) (i : Nat) (live : List Nat) : Pos :=
  lastPos .head (predList s key i live)

/-- The rest of the level-`i` chain, starting at the first id whose key
is at least the target. -/
def restList (s : SkipList) (key : Int) (i : Nat) (live : List Nat) : List Nat :=
  (s.filterLevel i live).dropWhile (fun a => decide (s.keyAt a < key))

theorem predList_append_restList (s : SkipList) (key : Int) (i : Nat) (live : List Nat) :
    predList s key i live ++ restList s key i live = s.filterLevel i live :=
  List.takeWhile_append_dropWhile _ _

theorem keyAt_lt_of_mem_predList {s : SkipList} {key : Int} {i : Nat} {live : List Nat}
    {id : Nat} (h : id ∈ predList s key i live) : s.keyAt id < key := by
  have := List.mem_takeWhile_imp h
  simpa using this

theorem predPos_eq_head_of_level_lt {s : SkipList} {live : List Nat} (hrep : Rep s live)
    (key : Int) {i : Nat} (hi : s.level < i) : predPos s key i live = Pos.head := by
  rw [predPos, predList, filterLevel_eq_nil_of_maxH_lt (by rw [← hrep.levelEq]; exact hi)]
  rfl

/-!
## The predecessor scan
-/

/-- One level of the top-down scan: walking at level `i` from the
level-`(i+1)` predecessor reaches the level-`i` predecessor. -/
theorem walk_from_predPos {s : SkipList} {live : List Nat} (hrep : Rep s live) (key : Int)
    {i : Nat} (hi : i ≤ s.max_level) :
    s.walk key i (predPos s key (i + 1) live) s.nodes.length = predPos s key i live := by
  have hch : IsChain s i .head (s.filterLevel i live) := hrep.chains i hi
  cases hA : predList s key (i + 1) live with
  | nil =>
    rw [predPos, hA]
    show s.walk key i .head s.nodes.length = _
    rw [walk_eq_takeWhile s key i (s.filterLevel i live) .head s.nodes.length hch
      (hrep.chain_bounded i) (hrep.chain_length_le i)]
    rfl
  | cons x xs =>
    obtain ⟨a, haMem, haEq⟩ := lastPos_cons_mem x xs .head
    rw [predPos, hA, haEq]
    have haMem' : a ∈ predList s key (i + 1) live := by rw [hA]; exact haMem
    have haKey : s.keyAt a < key := keyAt_lt_of_mem_predList haMem'
    have haLv1 : a ∈ s.filterLevel (i + 1) live :=
      (List.takeWhile_sublist _).mem haMem'
    have haC : a ∈ s.filterLevel i live := by
      obtain ⟨hl, hh⟩ := mem_filterLevel.mp haLv1
      exact mem_filterLevel.mpr ⟨hl, by omega⟩
    obtain ⟨d₁, d₂, hC⟩ := List.append_of_mem haC
    have hC' : s.filterLevel i live = (d₁ ++ [a]) ++ d₂ := by
      rw [hC]; simp
    have hlast : lastPos .head (d₁ ++ [a]) = Pos.node a := by
      rw [lastPos_append]; rfl
    have hch₂ : IsChain s i (Pos.node a) d₂ := by
      have h2 := IsChain.append_right (hC' ▸ hch)
      rwa [hlast] at h2
    have hbd₂ : ∀ id ∈ d₂, id < s.nodes.length := by
      intro id hid
      exact hrep.chain_bounded i id
        (by rw [hC]; exact List.mem_append_right d₁ (List.mem_cons_of_mem a hid))
    have hlen₂ : d₂.length ≤ s.nodes.length := by
      have h1 : d₂.length ≤ (s.filterLevel i live).length := by
        rw [hC]; simp [List.length_append]; omega
      exact Nat.le_trans h1 (hrep.chain_length_le i)
    rw [walk_eq_takeWhile s key i d₂ (Pos.node a) s.nodes.length hch₂ hbd₂ hlen₂]
    have hd₁ : ∀ b ∈ d₁, (fun c => decide (s.keyAt c < key)) b = true := by
      intro b hb
      have hsort := hrep.chain_sorted i
      rw [hC] at hsort
      have hba : s.keyAt b < s.keyAt a :=
        (List.pairwise_append.mp hsort).2.2 b hb a (List.mem_cons_self a d₂)
      simp only [decide_eq_true_eq]
      exact lt_trans hba haKey
    have hTake : (s.filterLevel i live).takeWhile (fun c => decide (s.keyAt c < key)) =
        d₁ ++ a :: d₂.takeWhile (fun c => decide (s.keyAt c < key)) := by
      rw [hC]
      exact takeWhile_append_all hd₁ (by simp [haKey])
    rw [predPos, predList, hTake]
    have hsplit : d₁ ++ a :: d₂.takeWhile (fun c => decide (s.keyAt c < key)) =
        (d₁ ++ [a]) ++ d₂.takeWhile (fun c => decide (s.keyAt c < key)) := by simp
    rw [hsplit, lastPos_append, hlast]

/-- The level loop of `search` lands on the level-0 predecessor. -/
theorem searchGo_eq_predPos {s : SkipList} {live : List Nat} (hrep : Rep s live) (key : Int) :
    ∀ i, i ≤ s.level → ∀ x, x = predPos s key (i + 1) live →
      s.searchGo key i x = predPos s key 0 live := by
  intro i
  induction i with
  | zero =>
    intro _ x hx
    subst hx
    exact walk_from_predPos hrep key (Nat.zero_le _)
  | succ i ih =>
    intro hle x hx
    subst hx
    show s.searchGo key i (s.walk key (i + 1) (predPos s key (i + 1 + 1) live) s.nodes.length) = _
    rw [walk_from_predPos hrep key (Nat.le_trans hle hrep.level_le)]
    exact ih (Nat.le_of_succ_le hle) _ rfl

theorem searchGo_head {s : SkipList} {live : List Nat} (hrep : Rep s live) (key : Int) :
    s.searchGo key s.level .head = predPos s key 0 live := by
  refine searchGo_eq_predPos hrep key s.level (Nat.le_refl _) .head ?_
  rw [predPos_eq_head_of_level_lt hrep key (Nat.lt_succ_self _)]

/-- `_find_updates` records the per-level predecessors for levels
`0 .. self.level` and leaves the other entries unset. -/
theorem findUpdatesGo_updAt {s : SkipList} {live : List Nat} (hrep : Rep s live) (key : Int) :
    ∀ i, i ≤ s.level → ∀ x update, x = predPos s key (i + 1) live →
      update.length = s.max_level + 1 →
      ∀ j, updAt (s.findUpdatesGo key i x update) j =
        if j ≤ i then some (predPos s key j live) else updAt update j := by
  intro i
  induction i with
  | zero =>
    intro _ x update hx hlen j
    subst hx
    show updAt (update.set 0 (some (s.walk key 0 (predPos s key (0 + 1) live) s.nodes.length))) j = _
    rw [walk_from_predPos hrep key (Nat.zero_le _)]
    by_cases hj : j = 0
    · subst hj
      rw [updAt, List.getElem?_set_self (by omega)]
      rfl
    · rw [updAt, List.getElem?_set_ne (fun hh => hj hh.symm), if_neg (by omega)]
      rfl
  | succ i ih =>
    intro hle x update hx hlen j
    subst hx
    show updAt (s.findUpdatesGo key i
      (s.walk key (i + 1) (predPos s key (i + 1 + 1) live) s.nodes.length)
      (update.set (i + 1)
        (some (s.walk key (i + 1) (predPos s key (i + 1 + 1) live) s.nodes.length)))) j = _
    rw [walk_from_predPos hrep key (Nat.le_trans hle hrep.level_le)]
    rw [ih (Nat.le_of_succ_le hle) _ _ rfl (by rw [List.length_set]; exact hlen) j]
    by_cases hj1 : j ≤ i
    · rw [if_pos hj1, if_pos (by omega)]
    · by_cases hj2 : j = i + 1
      · subst hj2
        rw [if_neg hj1, if_pos (Nat.le_refl _), updAt, List.getElem?_set_self
          (by rw [hlen]; have := Nat.le_trans hle hrep.level_le; omega)]
        rfl
      · rw [if_neg hj1, if_neg (by omega), updAt, updAt,
          List.getElem?_set_ne (fun hh => hj2 hh.symm)]

theorem find_updates_updAt {s : SkipList} {live : List Nat} (hrep : Rep s live)
    (key : Int) (j : Nat) :
    updAt (s._find_updates key) j =
      if j ≤ s.level then some (predPos s key j live) else none := by
  rw [_find_updates, findUpdatesGo_updAt hrep key s.level (Nat.le_refl _) .head
    (List.replicate (s.max_level + 1) none) ?_ (by rw [List.length_replicate]) j]
  · by_cases hj : j ≤ s.level
    · rw [if_pos hj, if_pos hj]
    · rw [if_neg hj, if_neg hj, updAt, List.getElem?_replicate]
      by_cases hj2 : j < s.max_level + 1 <;> simp [hj2]
  · rw [predPos_eq_head_of_level_lt hrep key (Nat.lt_succ_self _)]

/-!
## Search characterised against the abstract association list
-/

theorem filterLevel_zero (s : SkipList) (live : List Nat) : s.filterLevel 0 live = live := by
  rw [filterLevel]
  apply List.filter_eq_self.mpr
  intro a _
  simp

theorem isChain_restList {s : SkipList} {live : List Nat} (hrep : Rep s live) (key : Int)
    {i : Nat} (hi : i ≤ s.max_level) :
    IsChain s i (predPos s key i live) (restList s key i live) := by
  have hch := hrep.chains i hi
  rw [← predList_append_restList s key i live] at hch
  exact IsChain.append_right hch

theorem forwardAt_predPos {s : SkipList} {live : List Nat} (hrep : Rep s live) (key : Int)
    {i : Nat} (hi : i ≤ s.max_level) :
    s.forwardAt (predPos s key i live) i = (restList s key i live).head? :=
  (isChain_restList hrep key hi).head?_eq

theorem le_keyAt_of_mem_restList {s : SkipList} {live : List Nat} (hrep : Rep s live)
    {key : Int} {i : Nat} {id : Nat} (h : id ∈ restList s key i live) :
    key ≤ s.keyAt id := by
  rw [restList, dropWhile_eq_filter_sorted (hrep.chain_sorted i)] at h
  simpa using (List.mem_filter.mp h).2

theorem mem_live_of_mem_restList {s : SkipList} {key : Int} {i : Nat} {live : List Nat}
    {id : Nat} (h : id ∈ restList s key i live) : id ∈ live :=
  (filterLevel_sublist s i live).mem ((List.dropWhile_sublist _).mem h)

theorem restList_sorted {s : SkipList} {live : List Nat} (hrep : Rep s live)
    (key : Int) (i : Nat) :
    (restList s key i live).Pairwise (fun a b => s.keyAt a < s.keyAt b) :=
  List.Pairwise.sublist (List.dropWhile_sublist _) (hrep.chain_sorted i)

theorem mem_live_of_mem_predList {s : SkipList} {key : Int} {i : Nat} {live : List Nat}
    {id : Nat} (h : id ∈ predList s key i live) : id ∈ live :=
  (filterLevel_sublist s i live).mem ((List.takeWhile_sublist _).mem h)

/-- The abstract outcome of a lookup: the first (hence only) live id
whose key matches, characterised by the head of the level-0 rest. -/
theorem find?_eq_restList_head {s : SkipList} {live : List Nat} (hrep : Rep s live)
    (key : Int) :
    live.find? (fun id => decide (s.keyAt id = key)) =
      match (restList s key 0 live).head? with
      | some b => if s.keyAt b = key then some b else none
      | none => none := by
  have hsplit : predList s key 0 live ++ restList s key 0 live = live := by
    rw [predList_append_restList, filterLevel_zero]
  have hfindPred : (predList s key 0 live).find? (fun id => decide (s.keyAt id = key)) = none := by
    rw [List.find?_eq_none]
    intro id hid
    simp only [decide_eq_true_eq]
    exact ne_of_lt (keyAt_lt_of_mem_predList hid)
  have hmain : live.find? (fun id => decide (s.keyAt id = key)) =
      (restList s key 0 live).find? (fun id => decide (s.keyAt id = key)) := by
    conv_lhs => rw [← hsplit]
    rw [List.find?_append, hfindPred, Option.none_or]
  rw [hmain]
  cases hrest : restList s key 0 live with
  | nil => rfl
  | cons b bs =>
    simp only [List.head?_cons]
    by_cases hb : s.keyAt b = key
    · simp [List.find?_cons, hb]
    · have hbs : bs.find? (fun id => decide (s.keyAt id = key)) = none := by
        rw [List.find?_eq_none]
        intro c hc
        simp only [decide_eq_true_eq]
        have hcr : c ∈ restList s key 0 live := by
          rw [hrest]; exact List.mem_cons_of_mem b hc
        have hbr : b ∈ restList s key 0 live := by
          rw [hrest]; exact List.mem_cons_self b bs
        have hbc : s.keyAt b < s.keyAt c := by
          have hs := restList_sorted hrep key 0
          rw [hrest] at hs
          exact (List.pairwise_cons.mp hs).1 c hc
        have hkb : key ≤ s.keyAt b := le_keyAt_of_mem_restList hrep hbr
        exact ne_of_gt (lt_of_le_of_lt hkb hbc)
      simp [List.find?_cons, hb, hbs]

/-- `search` returns the stored value of the matching node (`none` both
for a miss and for a stored Python `None`). -/
theorem search_spec {s : SkipList} {live : List Nat} (hrep : Rep s live) (key : Int) :
    s.search key =
      (live.find? (fun id => decide (s.keyAt id = key))).bind (fun id => s.valueAt id) := by
  rw [find?_eq_restList_head hrep key]
  show (match s.forwardAt (s.searchGo key s.level .head) 0 with
    | some nid =>
      match s.nodes[nid]? with
      | some n => if n.key = key then n.value else none
      | none => none
    | none => none) = _
  rw [searchGo_head hrep key, forwardAt_predPos hrep key (Nat.zero_le _)]
  cases hrest : restList s key 0 live with
  | nil => rfl
  | cons b bs =>
    have hbl : b ∈ live := mem_live_of_mem_restList (by rw [hrest]; exact List.mem_cons_self b bs)
    obtain ⟨n, hn⟩ := exists_node_of_lt (hrep.bounded b hbl)
    have hkb : s.keyAt b = n.key := keyAt_eq_of_mem hn
    simp only [List.head?_cons, hn]
    by_cases hb : n.key = key
    · rw [if_pos hb, if_pos (by rw [hkb]; exact hb)]
      simp [valueAt, hn]
    · rw [if_neg hb, if_neg (by rw [hkb]; exact hb)]
      rfl

/-!
## Effect of the splice and unlink loops on the heap
-/

/-- Two heaps with the same layout: identical lengths, keys, values and
forward-array sizes (only the contents of forward slots may differ). -/
structure SameShape (t s : SkipList) : Prop where
  maxl : t.max_level = s.max_level
  lvl : t.level = s.level
  nlen : t.nodes.length = s.nodes.length
  hlen : t.headerForward.length = s.headerForward.length
  keys : ∀ id, t.keyAt id = s.keyAt id
  vals : ∀ id, t.valueAt id = s.valueAt id
  flen : ∀ id : Nat, (t.nodes[id]?).map (fun nd => nd.forward.length) =
    (s.nodes[id]?).map (fun nd => nd.forward.length)

theorem SameShape.refl (s : SkipList) : SameShape s s :=
  ⟨rfl, rfl, rfl, rfl, fun _ => rfl, fun _ => rfl, fun _ => rfl⟩

theorem SameShape.trans {u t s : SkipList} (h1 : SameShape u t) (h2 : SameShape t s) :
    SameShape u s :=
  ⟨h1.maxl.trans h2.maxl, h1.lvl.trans h2.lvl, h1.nlen.trans h2.nlen, h1.hlen.trans h2.hlen,
    fun id => (h1.keys id).trans (h2.keys id), fun id => (h1.vals id).trans (h2.vals id),
    fun id => (h1.flen id).trans (h2.flen id)⟩

theorem SameShape.setForward (s : SkipList) (p : Pos) (i : Nat) (v : Option Nat) :
    SameShape (s.setForward p i v) s :=
  ⟨max_level_setForward s p i v, level_setForward s p i v, nodes_length_setForward s p i v,
    headerForward_length_setForward s p i v, keyAt_setForward s p i v,
    valueAt_setForward s p i v, forwardLen_setForward s p i v⟩

theorem heightOf_congr_of_flen {t s : SkipList} {id : Nat}
    (h : (t.nodes[id]?).map (fun nd => nd.forward.length) =
      (s.nodes[id]?).map (fun nd => nd.forward.length)) :
    t.heightOf id = s.heightOf id := by
  unfold heightOf
  cases h1 : t.nodes[id]? with
  | none =>
    rw [h1] at h
    cases h2 : s.nodes[id]? with
    | none => rfl
    | some n => rw [h2] at h; simp at h
  | some n' =>
    rw [h1] at h
    cases h2 : s.nodes[id]? with
    | none => rw [h2] at h; simp at h
    | some n => rw [h2] at h; simp at h; simp [h]

theorem SameShape.heightOf {t s : SkipList} (h : SameShape t s) (id : Nat) :
    t.heightOf id = s.heightOf id :=
  heightOf_congr_of_flen (h.flen id)

theorem SameShape.slotOk_iff {t s : SkipList} (h : SameShape t s) (p : Pos) (i : Nat) :
    t.slotOk p i ↔ s.slotOk p i := by
  cases p with
  | head =>
    show i < _ ↔ i < _
    rw [h.hlen]
  | node id =>
    have hf := h.flen id
    constructor
    · rintro ⟨n', hn', hl'⟩
      rw [hn'] at hf
      cases h2 : s.nodes[id]? with
      | none => rw [h2] at hf; simp at hf
      | some n =>
        rw [h2] at hf
        simp at hf
        exact ⟨n, h2, by rw [← hf]; exact hl'⟩
    · rintro ⟨n, hn, hl⟩
      rw [hn] at hf
      cases h2 : t.nodes[id]? with
      | none => rw [h2] at hf; simp at hf
      | some n' =>
        rw [h2] at hf
        simp at hf
        exact ⟨n', h2, by rw [hf]; exact hl⟩

theorem spliceGo_sameShape (update : List (Option Pos)) (xid : Nat) :
    ∀ (n i : Nat) (s : SkipList), SameShape (spliceGo update xid s i n) s := by
  intro n
  induction n with
  | zero => intro i s; exact SameShape.refl s
  | succ m ih =>
    intro i s
    cases hu : updAt update i with
    | none =>
      simp only [spliceGo, hu]
      exact ih (i + 1) s
    | some p =>
      simp only [spliceGo, hu]
      exact SameShape.trans (ih (i + 1) _)
        (SameShape.trans (SameShape.setForward _ p i (some xid))
          (SameShape.setForward s (.node xid) i (s.forwardAt p i)))

theorem unlinkGo_sameShape (update : List (Option Pos)) (xid : Nat) :
    ∀ (n i : Nat) (s : SkipList), SameShape (unlinkGo update xid s i n) s := by
  intro n
  induction n with
  | zero => intro i s; exact SameShape.refl s
  | succ m ih =>
    intro i s
    cases hu : updAt update i with
    | none =>
      simp only [unlinkGo, hu]
      exact ih (i + 1) s
    | some p =>
      simp only [unlinkGo, hu]
      by_cases hg : s.forwardAt p i = some xid
      · rw [if_pos hg]
        exact SameShape.trans (ih (i + 1) _)
          (SameShape.setForward s p i (s.forwardAt (.node xid) i))
      · rw [if_neg hg]
        exact ih (i + 1) s

/-- What the splice loop does to the forward slots: for each level `i`
in range, `update[i]`'s slot `i` now points at the new node `xid`, the
new node's slot `i` holds the old successor, and every other slot is
untouched. -/
theorem spliceGo_forwardAt (update : List (Option Pos)) (xid : Nat) (P : Nat → Pos) :
    ∀ (n i0 : Nat) (s : SkipList),
      (∀ i, i0 ≤ i → i < i0 + n → updAt update i = some (P i)) →
      (∀ i, i0 ≤ i → i < i0 + n → P i ≠ .node xid) →
      (∀ i, i0 ≤ i → i < i0 + n → s.slotOk (P i) i) →
      (∀ i, i0 ≤ i → i < i0 + n → s.slotOk (.node xid) i) →
      (∀ i, i0 ≤ i → i < i0 + n →
        (spliceGo update xid s i0 n).forwardAt (P i) i = some xid ∧
        (spliceGo update xid s i0 n).forwardAt (.node xid) i = s.forwardAt (P i) i) ∧
      (∀ p i, i < i0 ∨ i0 + n ≤ i ∨ (p ≠ P i ∧ p ≠ .node xid) →
        (spliceGo update xid s i0 n).forwardAt p i = s.forwardAt p i) := by
  intro n
  induction n with
  | zero =>
    intro i0 s _ _ _ _
    exact ⟨fun i h1 h2 => absurd h2 (by omega), fun p i _ => rfl⟩
  | succ m ih =>
    intro i0 s hupd hPx hPok hxok
    have hu : updAt update i0 = some (P i0) := hupd i0 (Nat.le_refl _) (by omega)
    have hstep : spliceGo update xid s i0 (m + 1) =
        spliceGo update xid
          ((s.setForward (.node xid) i0 (s.forwardAt (P i0) i0)).setForward (P i0) i0 (some xid))
          (i0 + 1) m := by
      simp only [spliceGo, hu]
    set s1 := (s.setForward (.node xid) i0
      (s.forwardAt (P i0) i0)).setForward (P i0) i0 (some xid) with hs1
    have hshape1 : SameShape s1 s :=
      SameShape.trans (SameShape.setForward _ _ _ _) (SameShape.setForward _ _ _ _)
    have hAway : ∀ p i, i ≠ i0 → s1.forwardAt p i = s.forwardAt p i := by
      intro p i hi
      rw [hs1, forwardAt_setForward_ne _ (Or.inr hi), forwardAt_setForward_ne _ (Or.inr hi)]
    have hAt_ne : ∀ p, p ≠ P i0 → p ≠ .node xid → s1.forwardAt p i0 = s.forwardAt p i0 := by
      intro p h1 h2
      rw [hs1, forwardAt_setForward_ne _ (Or.inl h1), forwardAt_setForward_ne _ (Or.inl h2)]
    have hAtP : s1.forwardAt (P i0) i0 = some xid := by
      rw [hs1]
      exact forwardAt_setForward_self _
        (((SameShape.setForward s (.node xid) i0 _).slotOk_iff (P i0) i0).mpr
          (hPok i0 (Nat.le_refl _) (by omega)))
    have hAtX : s1.forwardAt (.node xid) i0 = s.forwardAt (P i0) i0 := by
      rw [hs1, forwardAt_setForward_ne _ (Or.inl (Ne.symm (hPx i0 (Nat.le_refl _) (by omega))))]
      exact forwardAt_setForward_self _ (hxok i0 (Nat.le_refl _) (by omega))
    obtain ⟨ihMain, ihAway⟩ := ih (i0 + 1) s1
      (fun i h1 h2 => hupd i (by omega) (by omega))
      (fun i h1 h2 => hPx i (by omega) (by omega))
      (fun i h1 h2 => (hshape1.slotOk_iff _ _).mpr (hPok i (by omega) (by omega)))
      (fun i h1 h2 => (hshape1.slotOk_iff _ _).mpr (hxok i (by omega) (by omega)))
    rw [hstep]
    constructor
    · intro i h1 h2
      by_cases hii : i = i0
      · subst hii
        constructor
        · rw [ihAway (P i) i (Or.inl (by omega)), hAtP]
        · rw [ihAway (.node xid) i (Or.inl (by omega)), hAtX]
      · have h1' : i0 + 1 ≤ i := by omega
        obtain ⟨hm1, hm2⟩ := ihMain i h1' (by omega)
        refine ⟨hm1, ?_⟩
        rw [hm2, hAway (P i) i hii]
    · intro p i hcond
      by_cases hii : i = i0
      · subst hii
        have hpP : p ≠ P i ∧ p ≠ .node xid := by
          rcases hcond with h | h | h
          · exact absurd h (by omega)
          · exact absurd h (by omega)
          · exact h
        rw [ihAway p i (Or.inl (by omega)), hAt_ne p hpP.1 hpP.2]
      · have hcond' : i < i0 + 1 ∨ i0 + 1 + m ≤ i ∨ (p ≠ P i ∧ p ≠ .node xid) := by
          rcases hcond with h | h | h
          · exact Or.inl (by omega)
          · exact Or.inr (Or.inl (by omega))
          · exact Or.inr (Or.inr h)
        rw [ihAway p i hcond', hAway p i hii]

/-- What the unlink loop does to the forward slots: at each level in
range, if `update[i]`'s slot `i` pointed at `xid` it is redirected to
`xid`'s own successor, otherwise it is left alone; no other slot
changes (in particular `xid`'s own slots are never written). -/
theorem unlinkGo_forwardAt (update : List (Option Pos)) (xid : Nat) (P : Nat → Pos) :
    ∀ (n i0 : Nat) (s : SkipList),
      (∀ i, i0 ≤ i → i < i0 + n → updAt update i = some (P i)) →
      (∀ i, i0 ≤ i → i < i0 + n → P i ≠ .node xid) →
      (∀ i, i0 ≤ i → i < i0 + n →
        (unlinkGo update xid s i0 n).forwardAt (P i) i =
          (if s.forwardAt (P i) i = some xid then s.forwardAt (.node xid) i
           else s.forwardAt (P i) i)) ∧
      (∀ p i, i < i0 ∨ i0 + n ≤ i ∨ p ≠ P i →
        (unlinkGo update xid s i0 n).forwardAt p i = s.forwardAt p i) := by
  intro n
  induction n with
  | zero =>
    intro i0 s _ _
    exact ⟨fun i h1 h2 => absurd h2 (by omega), fun p i _ => rfl⟩
  | succ m ih =>
    intro i0 s hupd hPx
    have hu : updAt update i0 = some (P i0) := hupd i0 (Nat.le_refl _) (by omega)
    by_cases hg : s.forwardAt (P i0) i0 = some xid
    · have hstep : unlinkGo update xid s i0 (m + 1) =
          unlinkGo update xid (s.setForward (P i0) i0 (s.forwardAt (.node xid) i0))
            (i0 + 1) m := by
        simp only [unlinkGo, hu, if_pos hg]
      set s1 := s.setForward (P i0) i0 (s.forwardAt (.node xid) i0) with hs1
      have hAway : ∀ p i, i ≠ i0 → s1.forwardAt p i = s.forwardAt p i := by
        intro p i hi
        rw [hs1, forwardAt_setForward_ne _ (Or.inr hi)]
      have hAt_ne : ∀ p, p ≠ P i0 → s1.forwardAt p i0 = s.forwardAt p i0 := by
        intro p h1
        rw [hs1, forwardAt_setForward_ne _ (Or.inl h1)]
      have hAtP : s1.forwardAt (P i0) i0 = s.forwardAt (.node xid) i0 := by
        rw [hs1]
        exact forwardAt_setForward_self _ (slotOk_of_forwardAt_eq_some hg)
      obtain ⟨ihMain, ihAway⟩ := ih (i0 + 1) s1
        (fun i h1 h2 => hupd i (by omega) (by omega))
        (fun i h1 h2 => hPx i (by omega) (by omega))
      rw [hstep]
      constructor
      · intro i h1 h2
        by_cases hii : i = i0
        · subst hii
          rw [ihAway (P i) i (Or.inl (by omega)), hAtP, if_pos hg]
        · have h1' : i0 + 1 ≤ i := by omega
          rw [ihMain i h1' (by omega), hAway (P i) i hii,
            hAway (.node xid) i hii]
      · intro p i hcond
        by_cases hii : i = i0
        · subst hii
          have hpP : p ≠ P i := by
            rcases hcond with h | h | h
            · exact absurd h (by omega)
            · exact absurd h (by omega)
            · exact h
          rw [ihAway p i (Or.inl (by omega)), hAt_ne p hpP]
        · have hcond' : i < i0 + 1 ∨ i0 + 1 + m ≤ i ∨ p ≠ P i := by
            rcases hcond with h | h | h
            · exact Or.inl (by omega)
            · exact Or.inr (Or.inl (by omega))
            · exact Or.inr (Or.inr h)
          rw [ihAway p i hcond', hAway p i hii]
    · have hstep : unlinkGo update xid s i0 (m + 1) = unlinkGo update xid s (i0 + 1) m := by
        simp only [unlinkGo, hu, if_neg hg]
      obtain ⟨ihMain, ihAway⟩ := ih (i0 + 1) s
        (fun i h1 h2 => hupd i (by omega) (by omega))
        (fun i h1 h2 => hPx i (by omega) (by omega))
      rw [hstep]
      constructor
      · intro i h1 h2
        by_cases hii : i = i0
        · subst hii
          rw [ihAway (P i) i (Or.inl (by omega)), if_neg hg]
        · exact ihMain i (by omega) (by omega)
      · intro p i hcond
        by_cases hii : i = i0
        · subst hii
          exact ihAway p i (Or.inl (by omega))
        · have hcond' : i < i0 + 1 ∨ i0 + 1 + m ≤ i ∨ p ≠ P i := by
            rcases hcond with h | h | h
            · exact Or.inl (by omega)
            · exact Or.inr (Or.inl (by omega))
            · exact Or.inr (Or.inr h)
          exact ihAway p i hcond'

/-!
## The level generator
-/

theorem randomLevelGo_succ_true {draws : Nat → Bool} {idx : Nat} (hd : draws idx = true)
    (lvl m : Nat) :
    randomLevelGo draws idx lvl (m + 1) = randomLevelGo draws (idx + 1) (lvl + 1) m := by
  simp [randomLevelGo, hd]

theorem randomLevelGo_succ_false {draws : Nat → Bool} {idx : Nat} (hd : draws idx = false)
    (lvl m : Nat) : randomLevelGo draws idx lvl (m + 1) = lvl := by
  simp [randomLevelGo, hd]

theorem randomLevelGo_ge (draws : Nat → Bool) :
    ∀ (fuel idx lvl : Nat), lvl ≤ randomLevelGo draws idx lvl fuel := by
  intro fuel
  induction fuel with
  | zero => intro idx lvl; exact Nat.le_refl _
  | succ m ih =>
    intro idx lvl
    cases hd : draws idx with
    | true =>
      rw [randomLevelGo_succ_true hd]
      exact Nat.le_trans (Nat.le_succ lvl) (ih (idx + 1) (lvl + 1))
    | false =>
      rw [randomLevelGo_succ_false hd]

theorem randomLevelGo_le (draws : Nat → Bool) :
    ∀ (fuel idx lvl : Nat), randomLevelGo draws idx lvl fuel ≤ lvl + fuel := by
  intro fuel
  induction fuel with
  | zero => intro idx lvl; exact Nat.le_refl _
  | succ m ih =>
    intro idx lvl
    cases hd : draws idx with
    | true =>
      rw [randomLevelGo_succ_true hd]
      exact Nat.le_trans (ih (idx + 1) (lvl + 1)) (by omega)
    | false =>
      rw [randomLevelGo_succ_false hd]
      omega

theorem _random_level_le (s : SkipList) (draws : Nat → Bool) :
    s._random_level draws ≤ s.max_level := by
  have := randomLevelGo_le draws s.max_level 0 0
  simpa [_random_level] using this

theorem randomLevelGo_ge_iff (draws : Nat → Bool) :
    ∀ (fuel idx lvl k : Nat), k ≤ fuel →
      (lvl + k ≤ randomLevelGo draws idx lvl fuel ↔ ∀ j, j < k → draws (idx + j) = true) := by
  intro fuel
  induction fuel with
  | zero =>
    intro idx lvl k hk
    have hk0 : k = 0 := Nat.le_zero.mp hk
    subst hk0
    simp [randomLevelGo]
  | succ m ih =>
    intro idx lvl k hk
    cases k with
    | zero =>
      simp only [Nat.add_zero]
      constructor
      · intro _ j hj; exact absurd hj (by omega)
      · intro _; exact randomLevelGo_ge draws (m + 1) idx lvl
    | succ k' =>
      cases hd : draws idx with
      | true =>
        rw [randomLevelGo_succ_true hd]
        have hiff := ih (idx + 1) (lvl + 1) k' (by omega)
        constructor
        · intro hle j hj
          cases j with
          | zero => simpa using hd
          | succ j' =>
            have hmp := hiff.mp (by omega)
            have hj' := hmp j' (by omega)
            simpa [Nat.add_assoc, Nat.add_comm, Nat.add_left_comm] using hj'
        · intro hall
          have hall' : ∀ j, j < k' → draws (idx + 1 + j) = true := by
            intro j hj
            have := hall (j + 1) (by omega)
            simpa [Nat.add_assoc, Nat.add_comm, Nat.add_left_comm] using this
          have := hiff.mpr hall'
          omega
      | false =>
        rw [randomLevelGo_succ_false hd]
        constructor
        · intro hle; exact absurd hle (by omega)
        · intro hall
          have h0 := hall 0 (by omega)
          simp only [Nat.add_zero] at h0
          rw [hd] at h0
          exact absurd h0 (by simp)

/-!
## Auxiliary loops of `insert`
-/

theorem setHeadFrom_length :
    ∀ (n lo : Nat) (u : List (Option Pos)), (setHeadFrom u lo n).length = u.length := by
  intro n
  induction n with
  | zero => intro lo u; rfl
  | succ m ih =>
    intro lo u
    show (setHeadFrom (u.set lo (some .head)) (lo + 1) m).length = _
    rw [ih, List.length_set]

theorem setHeadFrom_updAt :
    ∀ (n lo : Nat) (u : List (Option Pos)), lo + n ≤ u.length →
      ∀ j, updAt (setHeadFrom u lo n) j =
        if lo ≤ j ∧ j < lo + n then some .head else updAt u j := by
  intro n
  induction n with
  | zero =>
    intro lo u _ j
    rw [if_neg (by omega)]
    rfl
  | succ m ih =>
    intro lo u hlen j
    show updAt (setHeadFrom (u.set lo (some .head)) (lo + 1) m) j = _
    rw [ih (lo + 1) _ (by rw [List.length_set]; omega) j]
    by_cases h1 : lo + 1 ≤ j ∧ j < lo + 1 + m
    · rw [if_pos h1, if_pos (by omega)]
    · rw [if_neg h1]
      by_cases h2 : j = lo
      · subst h2
        rw [if_pos (by omega), updAt, List.getElem?_set_self (by omega)]
        rfl
      · rw [if_neg (by omega), updAt, updAt, List.getElem?_set_ne (fun hh => h2 hh.symm)]

theorem findUpdatesGo_length (s : SkipList) (key : Int) :
    ∀ (i : Nat) (x : Pos) (u : List (Option Pos)),
      (s.findUpdatesGo key i x u).length = u.length := by
  intro i
  induction i with
  | zero => intro x u; show (u.set 0 _).length = _; rw [List.length_set]
  | succ m ih =>
    intro x u
    show (s.findUpdatesGo key m _ (u.set (m + 1) _)).length = _
    rw [ih, List.length_set]

theorem find_updates_length (s : SkipList) (key : Int) :
    (s._find_updates key).length = s.max_level + 1 := by
  rw [_find_updates, findUpdatesGo_length, List.length_replicate]

/-!
## Allocating a node at the end of the arena
-/

theorem keyAt_append_old {s : SkipList} (x : Node) {id : Nat} (h : id < s.nodes.length) :
    ({ s with nodes := s.nodes ++ [x] } : SkipList).keyAt id = s.keyAt id := by
  rw [keyAt, keyAt]
  show (match (s.nodes ++ [x])[id]? with | some n => n.key | none => 0) = _
  rw [List.getElem?_append_left h]

theorem valueAt_append_old {s : SkipList} (x : Node) {id : Nat} (h : id < s.nodes.length) :
    ({ s with nodes := s.nodes ++ [x] } : SkipList).valueAt id = s.valueAt id := by
  rw [valueAt, valueAt]
  show (match (s.nodes ++ [x])[id]? with | some n => n.value | none => none) = _
  rw [List.getElem?_append_left h]

theorem heightOf_append_old {s : SkipList} (x : Node) {id : Nat} (h : id < s.nodes.length) :
    ({ s with nodes := s.nodes ++ [x] } : SkipList).heightOf id = s.heightOf id := by
  rw [heightOf, heightOf]
  show (match (s.nodes ++ [x])[id]? with | some n => n.forward.length - 1 | none => 0) = _
  rw [List.getElem?_append_left h]

theorem nodes_append_old {s : SkipList} (x : Node) {id : Nat} (h : id < s.nodes.length) :
    ({ s with nodes := s.nodes ++ [x] } : SkipList).nodes[id]? = s.nodes[id]? :=
  List.getElem?_append_left h

theorem nodes_append_new (s : SkipList) (x : Node) :
    ({ s with nodes := s.nodes ++ [x] } : SkipList).nodes[s.nodes.length]? = some x :=
  List.getElem?_concat_length s.nodes x

theorem forwardAt_append_old {s : SkipList} (x : Node) {p : Pos}
    (hp : ∀ id, p = .node id → id < s.nodes.length) (i : Nat) :
    ({ s with nodes := s.nodes ++ [x] } : SkipList).forwardAt p i = s.forwardAt p i := by
  cases p with
  | head => rfl
  | node id =>
    rw [forwardAt, forwardAt]
    show (match (s.nodes ++ [x])[id]? with
      | some n => n.forward[i]?.getD none | none => none) = _
    rw [List.getElem?_append_left (hp id rfl)]

theorem forwardAt_append_new (s : SkipList) (x : Node) (i : Nat) :
    ({ s with nodes := s.nodes ++ [x] } : SkipList).forwardAt (.node s.nodes.length) i =
      x.forward[i]?.getD none := by
  rw [forwardAt]
  show (match (s.nodes ++ [x])[s.nodes.length]? with
    | some n => n.forward[i]?.getD none | none => none) = _
  rw [List.getElem?_concat_length]

/-!
## Predecessor lists commute with level filtering
-/

theorem filterLevel_predList {s : SkipList} {live : List Nat} (hrep : Rep s live)
    (key : Int) (i : Nat) :
    s.filterLevel i (predList s key 0 live) = predList s key i live := by
  have h1 : predList s key 0 live = live.filter (fun a => decide (s.keyAt a < key)) := by
    rw [predList, filterLevel_zero, takeWhile_eq_filter_sorted hrep.sorted]
  have h2 : predList s key i live =
      (s.filterLevel i live).filter (fun a => decide (s.keyAt a < key)) := by
    rw [predList, takeWhile_eq_filter_sorted (hrep.chain_sorted i)]
  rw [h1, h2, filterLevel, filterLevel, List.filter_comm]

theorem filterLevel_restList {s : SkipList} {live : List Nat} (hrep : Rep s live)
    (key : Int) (i : Nat) :
    s.filterLevel i (restList s key 0 live) = restList s key i live := by
  have h1 : restList s key 0 live = live.filter (fun a => decide (key ≤ s.keyAt a)) := by
    rw [restList, filterLevel_zero, dropWhile_eq_filter_sorted hrep.sorted]
  have h2 : restList s key i live =
      (s.filterLevel i live).filter (fun a => decide (key ≤ s.keyAt a)) := by
    rw [restList, dropWhile_eq_filter_sorted (hrep.chain_sorted i)]
  rw [h1, h2, filterLevel, filterLevel, List.filter_comm]

/-!
## Overwriting a value in place
-/

theorem keyAt_set_value {s : SkipList} {nid : Nat} {n : Node}
    (hn : s.nodes[nid]? = some n) (v : Option Int) (id : Nat) :
    ({ s with nodes := s.nodes.set nid { n with value := v } } : SkipList).keyAt id =
      s.keyAt id := by
  have hlt : nid < s.nodes.length := (List.getElem?_eq_some.mp hn).1
  by_cases hid : nid = id
  · subst hid
    simp [keyAt, List.getElem?_set_self hlt, hn]
  · simp [keyAt, List.getElem?_set_ne hid]

theorem flen_set_value {s : SkipList} {nid : Nat} {n : Node}
    (hn : s.nodes[nid]? = some n) (v : Option Int) (id : Nat) :
    (({ s with nodes := s.nodes.set nid { n with value := v } } : SkipList).nodes[id]?).map
        (fun nd => nd.forward.length) =
      (s.nodes[id]?).map (fun nd => nd.forward.length) := by
  have hlt : nid < s.nodes.length := (List.getElem?_eq_some.mp hn).1
  by_cases hid : nid = id
  · subst hid
    simp [List.getElem?_set_self hlt, hn]
  · simp [List.getElem?_set_ne hid]

theorem forwardAt_set_value {s : SkipList} {nid : Nat} {n : Node}
    (hn : s.nodes[nid]? = some n) (v : Option Int) (p : Pos) (i : Nat) :
    ({ s with nodes := s.nodes.set nid { n with value := v } } : SkipList).forwardAt p i =
      s.forwardAt p i := by
  have hlt : nid < s.nodes.length := (List.getElem?_eq_some.mp hn).1
  cases p with
  | head => rfl
  | node id =>
    by_cases hid : nid = id
    · subst hid
      simp [forwardAt, List.getElem?_set_self hlt, hn]
    · simp [forwardAt, List.getElem?_set_ne hid]

theorem valueAt_set_value_self {s : SkipList} {nid : Nat} {n : Node}
    (hn : s.nodes[nid]? = some n) (v : Option Int) :
    ({ s with nodes := s.nodes.set nid { n with value := v } } : SkipList).valueAt nid = v := by
  have hlt : nid < s.nodes.length := (List.getElem?_eq_some.mp hn).1
  simp [valueAt, List.getElem?_set_self hlt]

theorem valueAt_set_value_ne {s : SkipList} {nid : Nat} {n : Node} (v : Option Int)
    {id : Nat} (hid : nid ≠ id) :
    ({ s with nodes := s.nodes.set nid { n with value := v } } : SkipList).valueAt id =
      s.valueAt id := by
  simp [valueAt, List.getElem?_set_ne hid]

/-- Transporting `Rep` across a state change that preserves keys,
heights, all forward slots and the two lengths as well as the level. -/
theorem rep_transport {s t : SkipList} {live : List Nat} (hrep : Rep s live)
    (hmaxl : t.max_level = s.max_level) (hlvl : t.level = s.level)
    (hnlen : t.nodes.length = s.nodes.length)
    (hhlen : t.headerForward.length = s.headerForward.length)
    (hkeys : ∀ id, t.keyAt id = s.keyAt id)
    (hhts : ∀ id, t.heightOf id = s.heightOf id)
    (hflen : ∀ id : Nat, (t.nodes[id]?).map (fun nd => nd.forward.length) =
      (s.nodes[id]?).map (fun nd => nd.forward.length))
    (hfa : ∀ p i, t.forwardAt p i = s.forwardAt p i) : Rep t live := by
  refine ⟨hrep.nodup, ?_, ?_, ?_, ?_, ?_, ?_, ?_⟩
  · intro id hid
    rw [hnlen]
    exact hrep.bounded id hid
  · exact hrep.sorted.imp_of_mem (fun ha hb hr => by rw [hkeys, hkeys]; exact hr)
  · intro id hid
    rw [hhts, hmaxl]
    exact hrep.hbound id hid
  · intro id hid n' hn'
    have hmap := hflen id
    rw [hn'] at hmap
    cases h2 : s.nodes[id]? with
    | none => rw [h2] at hmap; simp at hmap
    | some n =>
      rw [h2] at hmap
      simp at hmap
      rw [hmap, hhts]
      exact hrep.flen id hid n h2
  · rw [hlvl, hrep.levelEq, maxH_congr (fun id _ => hhts id)]
  · rw [hhlen, hmaxl]
    exact hrep.hlen
  · intro i hi
    rw [hmaxl] at hi
    rw [filterLevel_congr i (fun id _ => hhts id)]
    exact IsChain.of_forward_agree (fun p' => hfa p' i) (hrep.chains i hi)

theorem updForward_find_updates {s : SkipList} {live : List Nat} (hrep : Rep s live)
    (key : Int) {i : Nat} (hi : i ≤ s.level) :
    s.updForward (s._find_updates key) i = (restList s key i live).head? := by
  rw [updForward, find_updates_updAt hrep key i, if_pos hi]
  exact forwardAt_predPos hrep key (Nat.le_trans hi hrep.level_le)

/-- The overwrite branch of `insert`: when the key is present, the
result is the same heap with just that node's value replaced. -/
theorem insert_found {s : SkipList} {live : List Nat} (hrep : Rep s live) {key : Int}
    {nid : Nat} (hfind : live.find? (fun id => decide (s.keyAt id = key)) = some nid)
    (value : Option Int) (draws : Nat → Bool) :
    ∃ n, s.nodes[nid]? = some n ∧ n.key = key ∧
      s.insert key value draws =
        { s with nodes := s.nodes.set nid { n with value := value } } := by
  have hmem : nid ∈ live := List.mem_of_find?_eq_some hfind
  have hkey : s.keyAt nid = key := by
    have := List.find?_some hfind
    simpa using this
  obtain ⟨n, hn⟩ := exists_node_of_lt (hrep.bounded nid hmem)
  have hnk : n.key = key := by rw [← keyAt_eq_of_mem hn]; exact hkey
  have hhead : (restList s key 0 live).head? = some nid := by
    have hmatch := find?_eq_restList_head hrep key
    rw [hfind] at hmatch
    cases hh : (restList s key 0 live).head? with
    | none => rw [hh] at hmatch; simp at hmatch
    | some b =>
      rw [hh] at hmatch
      have h2 : some nid = (if s.keyAt b = key then some b else none) := hmatch
      by_cases hb : s.keyAt b = key
      · rw [if_pos hb] at h2
        exact h2.symm
      · rw [if_neg hb] at h2
        simp at h2
  have hupd0 : s.updForward (s._find_updates key) 0 = some nid := by
    rw [updForward_find_updates hrep key (Nat.zero_le _), hhead]
  refine ⟨n, hn, hnk, ?_⟩
  rw [insert]
  simp only [hupd0, hn, if_pos hnk]

/-!
## The new-node branch of `insert`
-/

theorem forwardAt_ext {t s : SkipList} (hn : t.nodes = s.nodes)
    (hh : t.headerForward = s.headerForward) (p : Pos) (i : Nat) :
    t.forwardAt p i = s.forwardAt p i := by
  cases p with
  | head => rw [forwardAt, forwardAt, hh]
  | node id => rw [forwardAt, forwardAt, hn]

theorem keyAt_ext {t s : SkipList} (hn : t.nodes = s.nodes) (id : Nat) :
    t.keyAt id = s.keyAt id := by
  rw [keyAt, keyAt, hn]

theorem valueAt_ext {t s : SkipList} (hn : t.nodes = s.nodes) (id : Nat) :
    t.valueAt id = s.valueAt id := by
  rw [valueAt, valueAt, hn]

theorem heightOf_ext {t s : SkipList} (hn : t.nodes = s.nodes) (id : Nat) :
    t.heightOf id = s.heightOf id := by
  rw [heightOf, heightOf, hn]

theorem forwardAt_dangling {s : SkipList} {id : Nat} (h : s.nodes.length ≤ id) (i : Nat) :
    s.forwardAt (.node id) i = none := by
  rw [forwardAt, List.getElem?_eq_none h]

theorem keyAt_dangling {s : SkipList} {id : Nat} (h : s.nodes.length ≤ id) :
    s.keyAt id = 0 := by
  rw [keyAt, List.getElem?_eq_none h]

theorem valueAt_dangling {s : SkipList} {id : Nat} (h : s.nodes.length ≤ id) :
    s.valueAt id = none := by
  rw [valueAt, List.getElem?_eq_none h]

/-- `insertNew` written as one `spliceGo` call on the extended arena. -/
theorem insertNew_eq (s : SkipList) (key : Int) (value : Option Int)
    (update : List (Option Pos)) (draws : Nat → Bool) :
    s.insertNew key value update draws =
      spliceGo
        (if s.level < s._random_level draws
         then setHeadFrom update (s.level + 1) (s._random_level draws - s.level) else update)
        s.nodes.length
        { s with level := max s.level (s._random_level draws),
                 nodes := s.nodes ++ [{ key := key, value := value,
                                         forward := List.replicate (s._random_level draws + 1) none }] }
        0 (s._random_level draws + 1) := by
  rw [insertNew]
  by_cases hc : s.level < s._random_level draws
  · simp only [if_pos hc]
    have hmax : max s.level (s._random_level draws) = s._random_level draws := by omega
    rw [hmax]
  · simp only [if_neg hc]
    have hmax : max s.level (s._random_level draws) = s.level := by omega
    rw [hmax]

/-- When the key is absent, `insert` takes the new-node path. -/
theorem insert_notfound_eq {s : SkipList} {live : List Nat} (hrep : Rep s live) {key : Int}
    (hfind : live.find? (fun id => decide (s.keyAt id = key)) = none)
    (value : Option Int) (draws : Nat → Bool) :
    s.insert key value draws = s.insertNew key value (s._find_updates key) draws := by
  cases hrl : restList s key 0 live with
  | nil =>
    have hupd0 : s.updForward (s._find_updates key) 0 = none := by
      rw [updForward_find_updates hrep key (Nat.zero_le _), hrl]
      rfl
    rw [insert]
    simp only [hupd0]
  | cons b bs =>
    have hb_mem : b ∈ restList s key 0 live := by
      rw [hrl]; exact List.mem_cons_self b bs
    have hbl : b ∈ live := mem_live_of_mem_restList hb_mem
    obtain ⟨n, hn⟩ := exists_node_of_lt (hrep.bounded b hbl)
    have hbk : s.keyAt b ≠ key := by
      have := List.find?_eq_none.mp hfind b hbl
      simpa using this
    have hnk : ¬n.key = key := by rw [← keyAt_eq_of_mem hn]; exact hbk
    have hupd0 : s.updForward (s._find_updates key) 0 = some b := by
      rw [updForward_find_updates hrep key (Nat.zero_le _), hrl]
      rfl
    rw [insert]
    simp only [hupd0, hn, if_neg hnk]

/-- The per-level predecessor is never the freshly allocated node. -/
theorem predPos_ne_new {s : SkipList} {live : List Nat} (hrep : Rep s live) (key : Int)
    (i : Nat) {xid : Nat} (hxid : s.nodes.length ≤ xid) :
    predPos s key i live ≠ .node xid := by
  cases hA : predList s key i live with
  | nil =>
    rw [predPos, hA]
    intro hcon
    cases hcon
  | cons y ys =>
    obtain ⟨a, haMem, haEq⟩ := lastPos_cons_mem y ys .head
    rw [predPos, hA, haEq]
    have haLive : a ∈ live := mem_live_of_mem_predList (by rw [hA]; exact haMem)
    have := hrep.bounded a haLive
    intro hcon
    cases hcon
    omega

/-- If the predecessor is a real node, it sits on the level-`i` chain,
so its forward array covers slot `i`. -/
theorem predPos_slotOk {s : SkipList} {live : List Nat} (hrep : Rep s live) (key : Int)
    {i : Nat} (hi : i ≤ s.max_level) : s.slotOk (predPos s key i live) i := by
  cases hA : predList s key i live with
  | nil =>
    rw [predPos, hA]
    show i < s.headerForward.length
    rw [hrep.hlen]
    omega
  | cons y ys =>
    obtain ⟨a, haMem, haEq⟩ := lastPos_cons_mem y ys .head
    rw [predPos, hA, haEq]
    have haP : a ∈ predList s key i live := by rw [hA]; exact haMem
    have haF : a ∈ s.filterLevel i live := (List.takeWhile_sublist _).mem haP
    obtain ⟨haLive, haHt⟩ := mem_filterLevel.mp haF
    obtain ⟨n, hn⟩ := exists_node_of_lt (hrep.bounded a haLive)
    refine ⟨n, hn, ?_⟩
    rw [hrep.flen a haLive n hn]
    omega

theorem lastPos_concat (p : Pos) (l : List Nat) (a : Nat) :
    lastPos p (l ++ [a]) = .node a := by
  rw [lastPos_append]
  rfl

theorem lastPos_eq_getLast (p : Pos) (l : List Nat) (h : l ≠ []) :
    lastPos p l = .node (l.getLast h) := by
  conv_lhs => rw [← List.dropLast_append_getLast h]
  exact lastPos_concat p _ _

theorem dropLast_ne_getLast {l : List Nat} (hnd : l.Nodup) (h : l ≠ []) :
    ∀ id ∈ l.dropLast, id ≠ l.getLast h := by
  intro id hid
  have hnd2 := hnd
  rw [← List.dropLast_append_getLast h] at hnd2
  obtain ⟨_, _, hdisj⟩ := List.nodup_append.mp hnd2
  intro heq
  exact hdisj hid (by rw [heq]; exact List.mem_singleton_self _)

/-- Transporting the predecessor-prefix links of level `i` to a state
that agrees on every slot the prefix reads. -/
theorem links_transport_pred {s t : SkipList} {live : List Nat} (hrep : Rep s live)
    (key : Int) {i : Nat} {xid : Nat} (hxid : xid = s.nodes.length)
    (hLA_s : Links s i .head (predList s key i live) (predPos s key i live))
    (hagree : ∀ p : Pos, (∀ id, p = .node id → id < s.nodes.length) →
      p ≠ predPos s key i live → p ≠ .node xid → t.forwardAt p i = s.forwardAt p i) :
    Links t i .head (predList s key i live) (predPos s key i live) := by
  have hA_nodup : (predList s key i live).Nodup :=
    List.Nodup.sublist (List.takeWhile_sublist _) (hrep.chain_nodup i)
  by_cases hAnil : predList s key i live = []
  · rw [hAnil] at hLA_s ⊢
    have hP : predPos s key i live = .head := by
      rw [predPos, hAnil]
      rfl
    rw [hP] at hLA_s ⊢
    exact Links.nil _
  · have hP : predPos s key i live = .node ((predList s key i live).getLast hAnil) := by
      rw [predPos]
      exact lastPos_eq_getLast _ _ hAnil
    apply Links.congr_dropLast hLA_s
    · exact hagree .head (fun id hid => by cases hid)
        (by rw [hP]; intro hcon; cases hcon) (fun hcon => by cases hcon)
    · intro id hid
      have hidA : id ∈ predList s key i live := (List.dropLast_sublist _).mem hid
      have hbound : id < s.nodes.length := hrep.bounded id (mem_live_of_mem_predList hidA)
      refine hagree _ (fun id' hid' => by injection hid' with hh; omega) ?_ ?_
      · rw [hP]
        intro hcon
        injection hcon with hh
        exact dropLast_ne_getLast hA_nodup hAnil id hid hh
      · intro hcon
        injection hcon with hh
        omega

/-- Transporting the rest-of-chain links of level `i` to the freshly
spliced node: the new node's slot points at the old successor chain,
whose own links are untouched. -/
theorem links_transport_rest {s t : SkipList} {live : List Nat} (hrep : Rep s live)
    (key : Int) {i : Nat} (hi : i ≤ s.max_level) (xid : Nat)
    (hxB : t.forwardAt (.node xid) i = (restList s key i live).head?)
    (hagree : ∀ id ∈ restList s key i live,
      t.forwardAt (.node id) i = s.forwardAt (.node id) i) :
    Links t i (.node xid) (restList s key i live) (lastPos (.node xid) (restList s key i live)) ∧
      t.forwardAt (lastPos (.node xid) (restList s key i live)) i = none := by
  have hrest2 : IsChain s i (predPos s key i live) (restList s key i live) :=
    isChain_restList hrep key hi
  by_cases hBnil : restList s key i live = []
  · rw [hBnil] at hxB ⊢
    exact ⟨Links.nil _, hxB⟩
  · obtain ⟨b, bs, hBc⟩ := List.exists_cons_of_ne_nil hBnil
    rw [hBc] at hxB hrest2 ⊢
    obtain ⟨hfb, hrestb⟩ := IsChain.cons_elim hrest2
    constructor
    · refine Links.cons (by rw [hxB]; rfl) ?_
      apply Links.congr_dropLast hrestb.1
      · exact hagree b (by rw [hBc]; exact List.mem_cons_self _ _)
      · intro id hid
        exact hagree id (by
          rw [hBc]
          exact List.mem_cons_of_mem _ ((List.dropLast_sublist _).mem hid))
    · obtain ⟨e, heB, heEq⟩ := lastPos_cons_mem b bs (.node xid)
      rw [heEq]
      rw [hagree e (by rw [hBc]; exact heB)]
      have hold := hrest2.2
      have h2 : lastPos (predPos s key i live) (b :: bs) = Pos.node e := heEq
      rw [h2] at hold
      exact hold

/-- Core of the new-node branch: splicing the fresh node into the
extended arena produces a well-formed skip list. -/
theorem splice_rep {s : SkipList} {live : List Nat} (hrep : Rep s live) {key : Int}
    (hfind : live.find? (fun id => decide (s.keyAt id = key)) = none)
    (value : Option Int) {h : Nat} (hhle : h ≤ s.max_level)
    {upd1 : List (Option Pos)}
    (hupd1 : ∀ i, i ≤ h → updAt upd1 i = some (predPos s key i live)) :
    ∀ t : SkipList, t = spliceGo upd1 s.nodes.length
        { s with level := max s.level h,
                 nodes := s.nodes ++ [{ key := key, value := value,
                                        forward := List.replicate (h + 1) none }] } 0 (h + 1) →
      Rep t (predList s key 0 live ++ s.nodes.length :: restList s key 0 live) ∧
      t.keyAt s.nodes.length = key ∧ t.valueAt s.nodes.length = value ∧
      (∀ id, id ≠ s.nodes.length → t.keyAt id = s.keyAt id) ∧
      (∀ id, id ≠ s.nodes.length → t.valueAt id = s.valueAt id) ∧
      (∀ id, id ≠ s.nodes.length → t.heightOf id = s.heightOf id) ∧
      t.heightOf s.nodes.length = h ∧
      t.nodes.length = s.nodes.length + 1 ∧
      t.level = max s.level h ∧ t.max_level = s.max_level ∧
      t.headerForward.length = s.max_level + 1 := by
  intro t ht
  set xid := s.nodes.length with hxid
  set x : Node := { key := key, value := value, forward := List.replicate (h + 1) none }
    with hxdef
  set s2 : SkipList := { s with level := max s.level h, nodes := s.nodes ++ [x] } with hs2def
  set A := predList s key 0 live with hAdef
  set B := restList s key 0 live with hBdef
  -- basic facts about the extended arena s2
  have hs2nodes_x : s2.nodes[xid]? = some x := List.getElem?_concat_length s.nodes x
  have hs2nodes_old : ∀ id, id < s.nodes.length → s2.nodes[id]? = s.nodes[id]? :=
    fun id hid => List.getElem?_append_left hid
  have hs2_nlen : s2.nodes.length = xid + 1 := by
    show (s.nodes ++ [x]).length = _
    simp
  have hs2F_old : ∀ (p : Pos) (i : Nat), (∀ id, p = .node id → id < s.nodes.length) →
      s2.forwardAt p i = s.forwardAt p i :=
    fun p i hp => (forwardAt_ext rfl rfl p i).trans (forwardAt_append_old x hp i)
  have hs2F_head : ∀ i, s2.forwardAt .head i = s.forwardAt .head i :=
    fun i => hs2F_old .head i (fun id hid => by cases hid)
  have hs2F_x : ∀ i, s2.forwardAt (.node xid) i = none := by
    intro i
    have hb : s2.forwardAt (.node xid) i =
        ({ s with nodes := s.nodes ++ [x] } : SkipList).forwardAt (.node xid) i :=
      forwardAt_ext rfl rfl _ i
    rw [hb, hxid, forwardAt_append_new]
    show (List.replicate (h + 1) (none : Option Nat))[i]?.getD none = none
    rw [List.getElem?_replicate]
    by_cases hi : i < h + 1 <;> simp [hi]
  have hs2K_old : ∀ id, id < s.nodes.length → s2.keyAt id = s.keyAt id :=
    fun id hid => (keyAt_ext rfl id).trans (keyAt_append_old x hid)
  have hs2V_old : ∀ id, id < s.nodes.length → s2.valueAt id = s.valueAt id :=
    fun id hid => (valueAt_ext rfl id).trans (valueAt_append_old x hid)
  have hs2H_old : ∀ id, id < s.nodes.length → s2.heightOf id = s.heightOf id :=
    fun id hid => (heightOf_ext rfl id).trans (heightOf_append_old x hid)
  have hs2K_x : s2.keyAt xid = key := by simp [keyAt, hs2nodes_x, hxdef]
  have hs2V_x : s2.valueAt xid = value := by simp [valueAt, hs2nodes_x, hxdef]
  have hs2H_x : s2.heightOf xid = h := by simp [heightOf, hs2nodes_x, hxdef]
  -- splice characterisation
  have hupd' : ∀ i, 0 ≤ i → i < 0 + (h + 1) → updAt upd1 i = some (predPos s key i live) :=
    fun i _ hi => hupd1 i (by omega)
  have hPx : ∀ i, 0 ≤ i → i < 0 + (h + 1) → predPos s key i live ≠ .node xid :=
    fun i _ _ => predPos_ne_new hrep key i (Nat.le_refl _)
  have hPbound : ∀ (i : Nat) (id : Nat), predPos s key i live = .node id →
      id < s.nodes.length := by
    intro i id hp
    cases hA0 : predList s key i live with
    | nil => rw [predPos, hA0] at hp; cases hp
    | cons y ys =>
      obtain ⟨a, haMem, haEq⟩ := lastPos_cons_mem y ys .head
      rw [predPos, hA0, haEq] at hp
      have haid : a = id := by injection hp
      subst haid
      exact hrep.bounded a (mem_live_of_mem_predList (by rw [hA0]; exact haMem))
  have hPok : ∀ i, 0 ≤ i → i < 0 + (h + 1) → s2.slotOk (predPos s key i live) i := by
    intro i _ hi
    have h1 : s.slotOk (predPos s key i live) i := predPos_slotOk hrep key (by omega)
    cases hp : predPos s key i live with
    | head =>
      show i < s2.headerForward.length
      show i < s.headerForward.length
      rw [hrep.hlen]
      omega
    | node a =>
      rw [hp] at h1
      obtain ⟨n, hn, hl⟩ := h1
      have ha : a < s.nodes.length := (List.getElem?_eq_some.mp hn).1
      exact ⟨n, by rw [hs2nodes_old a ha]; exact hn, hl⟩
  have hxok : ∀ i, 0 ≤ i → i < 0 + (h + 1) → s2.slotOk (.node xid) i := by
    intro i _ hi
    refine ⟨x, hs2nodes_x, ?_⟩
    rw [hxdef]
    simp only [List.length_replicate]
    omega
  obtain ⟨hmain, haway⟩ := spliceGo_forwardAt upd1 xid (fun i => predPos s key i live)
    (h + 1) 0 s2 hupd' hPx hPok hxok
  have hshape : SameShape t s2 := by
    rw [ht]
    exact spliceGo_sameShape upd1 xid (h + 1) 0 s2
  -- description of t
  have htF_p : ∀ i, i ≤ h → t.forwardAt (predPos s key i live) i = some xid := by
    intro i hi
    rw [ht]
    exact (hmain i (by omega) (by omega)).1
  have htF_x : ∀ i, i ≤ h → t.forwardAt (.node xid) i = (restList s key i live).head? := by
    intro i hi
    rw [ht, (hmain i (by omega) (by omega)).2,
      hs2F_old _ _ (fun id hid => hPbound i id hid)]
    exact forwardAt_predPos hrep key (Nat.le_trans hi hhle)
  have htF_away : ∀ (p : Pos) (i : Nat),
      (h < i ∨ (p ≠ predPos s key i live ∧ p ≠ .node xid)) →
      t.forwardAt p i = s2.forwardAt p i := by
    intro p i hc
    rw [ht]
    apply haway p i
    rcases hc with hc | hc
    · exact Or.inr (Or.inl (by omega))
    · exact Or.inr (Or.inr hc)
  have htF_away_s : ∀ (p : Pos) (i : Nat), (∀ id, p = .node id → id < s.nodes.length) →
      (h < i ∨ (p ≠ predPos s key i live ∧ p ≠ .node xid)) →
      t.forwardAt p i = s.forwardAt p i :=
    fun p i hold hc => (htF_away p i hc).trans (hs2F_old p i hold)
  -- accessor facts about t
  have ht_nlen : t.nodes.length = xid + 1 := hshape.nlen.trans hs2_nlen
  have htK_x : t.keyAt xid = key := (hshape.keys xid).trans hs2K_x
  have htV_x : t.valueAt xid = value := (hshape.vals xid).trans hs2V_x
  have htH_x : t.heightOf xid = h := (hshape.heightOf xid).trans hs2H_x
  have htK_old : ∀ id, id ≠ xid → t.keyAt id = s.keyAt id := by
    intro id hid
    rcases lt_or_ge id s.nodes.length with hlt | hge
    · exact (hshape.keys id).trans (hs2K_old id hlt)
    · have hge2 : s2.nodes.length ≤ id := by omega
      rw [hshape.keys id, keyAt_dangling hge2, keyAt_dangling hge]
  have htV_old : ∀ id, id ≠ xid → t.valueAt id = s.valueAt id := by
    intro id hid
    rcases lt_or_ge id s.nodes.length with hlt | hge
    · exact (hshape.vals id).trans (hs2V_old id hlt)
    · have hge2 : s2.nodes.length ≤ id := by omega
      rw [hshape.vals id, valueAt_dangling hge2, valueAt_dangling hge]
  have htH_old : ∀ id, id ≠ xid → t.heightOf id = s.heightOf id := by
    intro id hid
    rcases lt_or_ge id s.nodes.length with hlt | hge
    · exact (hshape.heightOf id).trans (hs2H_old id hlt)
    · have hge2 : s2.nodes.length ≤ id := by omega
      rw [hshape.heightOf id]
      show (match s2.nodes[id]? with | some n => n.forward.length - 1 | none => 0) = _
      rw [List.getElem?_eq_none hge2]
      show 0 = s.heightOf id
      rw [heightOf, List.getElem?_eq_none hge]
  have ht_maxl : t.max_level = s.max_level := hshape.maxl
  have ht_lvl : t.level = max s.level h := hshape.lvl
  have ht_hlen : t.headerForward.length = s.max_level + 1 := by
    rw [hshape.hlen]
    show s.headerForward.length = _
    exact hrep.hlen
  -- abstract-side facts
  have hAB : A ++ B = live := by
    rw [hAdef, hBdef]
    have := predList_append_restList s key 0 live
    rwa [filterLevel_zero] at this
  have hA_live : ∀ a ∈ A, a ∈ live := fun a ha => mem_live_of_mem_predList ha
  have hB_live : ∀ b ∈ B, b ∈ live := fun b hb => mem_live_of_mem_restList hb
  have hA_bound : ∀ a ∈ A, a < xid := fun a ha => hrep.bounded a (hA_live a ha)
  have hB_bound : ∀ b ∈ B, b < xid := fun b hb => hrep.bounded b (hB_live b hb)
  have hxid_notin : xid ∉ live := fun hmem => by
    have := hrep.bounded xid hmem
    omega
  have hA_keys : ∀ a ∈ A, s.keyAt a < key := fun a ha => keyAt_lt_of_mem_predList ha
  have hB_keys : ∀ b ∈ B, key < s.keyAt b := by
    intro b hb
    have h1 : key ≤ s.keyAt b := le_keyAt_of_mem_restList hrep hb
    have h2 : s.keyAt b ≠ key := by
      have := List.find?_eq_none.mp hfind b (hB_live b hb)
      simpa using this
    exact lt_of_le_of_ne h1 (Ne.symm h2)
  -- the Rep fields
  have hnodup : (A ++ xid :: B).Nodup := by
    rw [List.nodup_middle, List.nodup_cons, hAB]
    exact ⟨hxid_notin, hrep.nodup⟩
  have hbounded : ∀ id ∈ A ++ xid :: B, id < t.nodes.length := by
    intro id hid
    rw [ht_nlen]
    rcases List.mem_append.mp hid with hid | hid
    · have := hA_bound id hid
      omega
    · rcases List.mem_cons.mp hid with hid | hid
      · omega
      · have := hB_bound id hid
        omega
  have hsorted : (A ++ xid :: B).Pairwise (fun a b => t.keyAt a < t.keyAt b) := by
    rw [List.pairwise_append]
    refine ⟨?_, ?_, ?_⟩
    · have hPA : A.Pairwise (fun a b => s.keyAt a < s.keyAt b) := by
        have hsub : A.Sublist live := by
          rw [← hAB]
          exact List.sublist_append_left A B
        exact List.Pairwise.sublist hsub hrep.sorted
      exact hPA.imp_of_mem (fun ha hb hr => by
        rw [htK_old _ (by have := hA_bound _ ha; omega),
          htK_old _ (by have := hA_bound _ hb; omega)]
        exact hr)
    · rw [List.pairwise_cons]
      constructor
      · intro b hb
        rw [htK_x, htK_old _ (by have := hB_bound _ hb; omega)]
        exact hB_keys b hb
      · have hPB : B.Pairwise (fun a b => s.keyAt a < s.keyAt b) := by
          have hsub : B.Sublist live := by
            rw [← hAB]
            exact List.sublist_append_right A B
          exact List.Pairwise.sublist hsub hrep.sorted
        exact hPB.imp_of_mem (fun ha hb hr => by
          rw [htK_old _ (by have := hB_bound _ ha; omega),
            htK_old _ (by have := hB_bound _ hb; omega)]
          exact hr)
    · intro a ha c hc
      rcases List.mem_cons.mp hc with hc | hc
      · subst hc
        rw [htK_x, htK_old _ (by have := hA_bound _ ha; omega)]
        exact hA_keys a ha
      · rw [htK_old _ (by have := hA_bound _ ha; omega),
          htK_old _ (by have := hB_bound _ hc; omega)]
        exact lt_trans (hA_keys a ha) (hB_keys c hc)
  have hhbound : ∀ id ∈ A ++ xid :: B, t.heightOf id ≤ t.max_level := by
    intro id hid
    rw [ht_maxl]
    rcases List.mem_append.mp hid with hid | hid
    · rw [htH_old _ (by have := hA_bound _ hid; omega)]
      exact hrep.hbound id (hA_live id hid)
    · rcases List.mem_cons.mp hid with hid | hid
      · subst hid
        rw [htH_x]
        exact hhle
      · rw [htH_old _ (by have := hB_bound _ hid; omega)]
        exact hrep.hbound id (hB_live id hid)
  have hflen : ∀ id ∈ A ++ xid :: B, ∀ n, t.nodes[id]? = some n →
      n.forward.length = t.heightOf id + 1 := by
    intro id hid n hn
    have hmap := hshape.flen id
    rw [hn] at hmap
    by_cases hx : id = xid
    · subst hx
      rw [hs2nodes_x] at hmap
      simp [hxdef] at hmap
      rw [hmap, htH_x]
    · have hlt : id < s.nodes.length := by
        rcases List.mem_append.mp hid with hid | hid
        · exact hA_bound id hid
        · rcases List.mem_cons.mp hid with hid | hid
          · exact absurd hid hx
          · exact hB_bound id hid
      rw [hs2nodes_old id hlt] at hmap
      cases h2 : s.nodes[id]? with
      | none => rw [h2] at hmap; simp at hmap
      | some n0 =>
        rw [h2] at hmap
        simp at hmap
        rw [hmap, htH_old id hx]
        have hidlive : id ∈ live := by
          rcases List.mem_append.mp hid with hid | hid
          · exact hA_live id hid
          · rcases List.mem_cons.mp hid with hid | hid
            · exact absurd hid hx
            · exact hB_live id hid
        exact hrep.flen id hidlive n0 h2
  have hlevelEq : t.level = t.maxH (A ++ xid :: B) := by
    have e2 : t.maxH (A ++ xid :: B) = max (t.maxH A) (max (t.heightOf xid) (t.maxH B)) := by
      rw [maxH_append]
      rfl
    have e3 : t.maxH A = s.maxH A :=
      maxH_congr (fun id hid => htH_old id (by have := hA_bound _ hid; omega))
    have e4 : t.maxH B = s.maxH B :=
      maxH_congr (fun id hid => htH_old id (by have := hB_bound _ hid; omega))
    have e1 : s.maxH live = max (s.maxH A) (s.maxH B) := by
      rw [← hAB, maxH_append]
    have e5 := hrep.levelEq
    rw [ht_lvl, e2, e3, e4, htH_x]
    rw [e1] at e5
    omega
  -- the chains
  have hchains : ∀ i, i ≤ t.max_level →
      IsChain t i .head (t.filterLevel i (A ++ xid :: B)) := by
    intro i hi
    rw [ht_maxl] at hi
    have hAi : t.filterLevel i A = predList s key i live := by
      rw [filterLevel_congr i (fun id hid => htH_old id (by have := hA_bound _ hid; omega))]
      exact filterLevel_predList hrep key i
    have hBi : t.filterLevel i B = restList s key i live := by
      rw [filterLevel_congr i (fun id hid => htH_old id (by have := hB_bound _ hid; omega))]
      exact filterLevel_restList hrep key i
    have hCsplit : predList s key i live ++ restList s key i live = s.filterLevel i live :=
      predList_append_restList s key i live
    by_cases hcase : i ≤ h
    · -- the new node participates at level i
      have hfl : t.filterLevel i (A ++ xid :: B) =
          predList s key i live ++ xid :: restList s key i live := by
        rw [filterLevel, List.filter_append, List.filter_cons]
        have hx : decide (i ≤ t.heightOf xid) = true := by
          rw [htH_x]
          simpa using hcase
        rw [hx]
        show t.filterLevel i A ++ xid :: t.filterLevel i B = _
        rw [hAi, hBi]
      rw [hfl]
      have hchainC : IsChain s i .head (predList s key i live ++ restList s key i live) := by
        rw [hCsplit]
        exact hrep.chains i hi
      have hLA_s : Links s i .head (predList s key i live) (predPos s key i live) :=
        (Links.append_split hchainC.1).1
      have hC_nodup : (predList s key i live ++ restList s key i live).Nodup := by
        rw [hCsplit]
        exact hrep.chain_nodup i
      have hdisjAB := (List.nodup_append.mp hC_nodup).2.2
      have hagreeA : ∀ p : Pos, (∀ id, p = .node id → id < s.nodes.length) →
          p ≠ predPos s key i live → p ≠ .node xid → t.forwardAt p i = s.forwardAt p i :=
        fun p hold hne1 hne2 => htF_away_s p i hold (Or.inr ⟨hne1, hne2⟩)
      have hLA_t : Links t i .head (predList s key i live) (predPos s key i live) :=
        links_transport_pred hrep key hxid hLA_s hagreeA
      have hagreeB : ∀ id ∈ restList s key i live,
          t.forwardAt (.node id) i = s.forwardAt (.node id) i := by
        intro id hidB
        have hbound : id < s.nodes.length := hrep.bounded id (mem_live_of_mem_restList hidB)
        refine hagreeA _ (fun id' hid' => by injection hid' with hh; omega) ?_ ?_
        · by_cases hAnil : predList s key i live = []
          · rw [predPos, hAnil]
            intro hcon
            cases hcon
          · rw [predPos, lastPos_eq_getLast _ _ hAnil]
            intro hcon
            injection hcon with hh
            exact hdisjAB (List.getLast_mem hAnil) (hh ▸ hidB)
        · intro hcon
          injection hcon with hh
          omega
      have hBparts := links_transport_rest hrep key hi xid (htF_x i hcase) hagreeB
      have hL : Links t i .head
          (predList s key i live ++ xid :: restList s key i live)
          (lastPos (.node xid) (restList s key i live)) :=
        Links.append hLA_t (Links.cons (htF_p i hcase) hBparts.1)
      have heqLP := Links.eq_lastPos hL
      refine ⟨?_, ?_⟩
      · rw [← heqLP]
        exact hL
      · rw [← heqLP]
        exact hBparts.2
    · -- the new node is below level i: nothing changed
      have hfl : t.filterLevel i (A ++ xid :: B) = s.filterLevel i live := by
        rw [filterLevel, List.filter_append, List.filter_cons]
        have hx : decide (i ≤ t.heightOf xid) = false := by
          rw [htH_x]
          simpa using hcase
        rw [hx]
        show t.filterLevel i A ++ t.filterLevel i B = _
        rw [hAi, hBi, hCsplit]
      rw [hfl]
      have hall : ∀ p', t.forwardAt p' i = s.forwardAt p' i := by
        intro p'
        rw [htF_away p' i (Or.inl (by omega))]
        cases p' with
        | head => exact hs2F_head i
        | node id =>
          rcases lt_trichotomy id xid with hlt | heq | hgt
          · exact hs2F_old _ i (fun id' hid' => by injection hid' with hh; omega)
          · subst heq
            rw [hs2F_x i, forwardAt_dangling (Nat.le_refl _)]
          · rw [forwardAt_dangling (by omega : s2.nodes.length ≤ id),
              forwardAt_dangling (by omega : s.nodes.length ≤ id)]
      exact IsChain.of_forward_agree hall (hrep.chains i hi)
  refine ⟨⟨hnodup, hbounded, hsorted, hhbound, hflen, hlevelEq, by rw [ht_hlen, ht_maxl], hchains⟩,
    htK_x, htV_x, htK_old, htV_old, htH_old, htH_x, ht_nlen, ht_lvl, ht_maxl, ht_hlen⟩

/-- The new-node branch of `insert`, specified: the key is spliced in at
its sorted position with the drawn height, everything else untouched. -/
theorem insert_new_spec {s : SkipList} {live : List Nat} (hrep : Rep s live) {key : Int}
    (hfind : live.find? (fun id => decide (s.keyAt id = key)) = none)
    (value : Option Int) (draws : Nat → Bool) :
    Rep (s.insert key value draws)
      (predList s key 0 live ++ s.nodes.length :: restList s key 0 live) ∧
    (s.insert key value draws).keyAt s.nodes.length = key ∧
    (s.insert key value draws).valueAt s.nodes.length = value ∧
    (∀ id, id ≠ s.nodes.length → (s.insert key value draws).keyAt id = s.keyAt id) ∧
    (∀ id, id ≠ s.nodes.length → (s.insert key value draws).valueAt id = s.valueAt id) ∧
    (∀ id, id ≠ s.nodes.length → (s.insert key value draws).heightOf id = s.heightOf id) ∧
    (s.insert key value draws).heightOf s.nodes.length = s._random_level draws ∧
    (s.insert key value draws).nodes.length = s.nodes.length + 1 ∧
    (s.insert key value draws).level = max s.level (s._random_level draws) ∧
    (s.insert key value draws).max_level = s.max_level ∧
    (s.insert key value draws).headerForward.length = s.max_level + 1 := by
  have hupd1 : ∀ i, i ≤ s._random_level draws →
      updAt (if s.level < s._random_level draws
        then setHeadFrom (s._find_updates key) (s.level + 1) (s._random_level draws - s.level)
        else s._find_updates key) i = some (predPos s key i live) := by
    intro i hi
    by_cases hc : s.level < s._random_level draws
    · rw [if_pos hc, setHeadFrom_updAt _ _ _
        (by rw [find_updates_length]; have := _random_level_le s draws; omega) i]
      rcases Nat.lt_or_ge i (s.level + 1) with h1 | h1
      · rw [if_neg (by omega), find_updates_updAt hrep key, if_pos (by omega)]
      · rw [if_pos (by omega), predPos_eq_head_of_level_lt hrep key (by omega)]
    · rw [if_neg hc, find_updates_updAt hrep key, if_pos (by omega)]
  exact splice_rep hrep hfind value (_random_level_le s draws) hupd1 _
    ((insert_notfound_eq hrep hfind value draws).trans (insertNew_eq s key value _ draws))

/-- The overwrite branch keeps the same representation. -/
theorem rep_set_value {s : SkipList} {live : List Nat} (hrep : Rep s live) {nid : Nat}
    {n : Node} (hn : s.nodes[nid]? = some n) (v : Option Int) :
    Rep ({ s with nodes := s.nodes.set nid { n with value := v } } : SkipList) live := by
  refine rep_transport hrep rfl rfl (List.length_set _ _ _) rfl (keyAt_set_value hn v)
    ?_ (flen_set_value hn v) (forwardAt_set_value hn v)
  intro id
  exact heightOf_congr_of_flen (flen_set_value hn v id)

/-!
## Observations of a represented state
-/

theorem chain0_live {s : SkipList} {live : List Nat} (hrep : Rep s live) :
    IsChain s 0 .head live := by
  have h := hrep.chains 0 (Nat.zero_le _)
  rwa [filterLevel_zero] at h

theorem len_eq {s : SkipList} {live : List Nat} (hrep : Rep s live) :
    s.len = live.length := by
  rw [len]
  exact chainCount_eq s live .head s.nodes.length (chain0_live hrep) hrep.live_length_le

theorem display_eq {s : SkipList} {live : List Nat} (hrep : Rep s live) :
    s.display = live.map (fun id => (s.keyAt id, s.valueAt id)) := by
  rw [display]
  exact chainPairs_eq s live .head s.nodes.length (chain0_live hrep) hrep.bounded
    hrep.live_length_le

theorem chainIds_none (s : SkipList) (i : Nat) (fuel : Nat) :
    s.chainIds i none fuel = [] := by
  cases fuel <;> rfl

theorem levelIds_eq {s : SkipList} {live : List Nat} (hrep : Rep s live) (i : Nat) :
    s.levelIds i = s.filterLevel i live := by
  by_cases hi : i ≤ s.max_level
  · rw [levelIds]
    exact chainIds_eq s i _ .head s.nodes.length (hrep.chains i hi) (hrep.chain_length_le i)
  · rw [levelIds, forwardAt_head_none_of_max_lt hrep.hlen (by omega), chainIds_none,
      filterLevel_eq_nil_of_maxH_lt]
    have h1 : s.maxH live ≤ s.max_level := maxH_le hrep.hbound
    omega

theorem find?_key_congr {t s : SkipList} (key : Int)
    (hkeys : ∀ id, t.keyAt id = s.keyAt id) (l : List Nat) :
    l.find? (fun id => decide (t.keyAt id = key)) =
      l.find? (fun id => decide (s.keyAt id = key)) := by
  have hfun : (fun id => decide (t.keyAt id = key)) =
      (fun id => decide (s.keyAt id = key)) :=
    funext fun id => by rw [hkeys id]
  rw [hfun]

/-- Round trip on any represented state: `insert` then `search` yields
the stored value. -/
theorem insert_search_rep {s : SkipList} {live : List Nat} (hrep : Rep s live)
    (key : Int) (value : Option Int) (draws : Nat → Bool) :
    (s.insert key value draws).search key = value := by
  cases hf : live.find? (fun id => decide (s.keyAt id = key)) with
  | some nid =>
    obtain ⟨n, hn, hnk, heq⟩ := insert_found hrep hf value draws
    rw [heq]
    have hrep' := rep_set_value hrep hn value
    rw [search_spec hrep' key, find?_key_congr key (keyAt_set_value hn value) live, hf]
    show ({ s with nodes := s.nodes.set nid { n with value := value } } : SkipList).valueAt nid
      = value
    exact valueAt_set_value_self hn value
  | none =>
    obtain ⟨hrep', hK, hV, hKold, hVold, hHold, hHx, hnlen, hlvl, hmaxl, hhlen⟩ :=
      insert_new_spec hrep hf value draws
    rw [search_spec hrep' key]
    have hfind' : (predList s key 0 live ++ s.nodes.length :: restList s key 0 live).find?
        (fun id => decide ((s.insert key value draws).keyAt id = key)) =
        some s.nodes.length := by
      rw [List.find?_append]
      have hA : (predList s key 0 live).find?
          (fun id => decide ((s.insert key value draws).keyAt id = key)) = none := by
        rw [List.find?_eq_none]
        intro a ha
        have haB : a < s.nodes.length := hrep.bounded a (mem_live_of_mem_predList ha)
        have hlt := keyAt_lt_of_mem_predList ha
        simp only [decide_eq_true_eq]
        rw [hKold a (by omega)]
        exact ne_of_lt hlt
      rw [hA, Option.none_or, List.find?_cons]
      have hdec : decide ((s.insert key value draws).keyAt s.nodes.length = key) = true := by
        simp [hK]
      rw [hdec]
    rw [hfind']
    show ((s.insert key value draws).valueAt s.nodes.length) = value
    exact hV

/-!
## Generic chain transport and the unlink/shrink loops
-/

/-- Re-root an untouched chain at a new start position: if the new
state's start slot points at the old chain's head and agrees on every
chain member, the chain is intact from the new start. -/
theorem links_transport_gen {s t : SkipList} {i : Nat} {q : Pos} {l : List Nat} {p : Pos}
    (hold : IsChain s i q l) (hpf : t.forwardAt p i = l.head?)
    (hagree : ∀ id ∈ l, t.forwardAt (.node id) i = s.forwardAt (.node id) i) :
    IsChain t i p l := by
  cases l with
  | nil => exact ⟨Links.nil _, hpf⟩
  | cons b bs =>
    obtain ⟨hfb, hrestb⟩ := IsChain.cons_elim hold
    constructor
    · refine Links.cons (by rw [hpf]; rfl) ?_
      apply Links.congr_dropLast hrestb.1
      · exact hagree b (List.mem_cons_self _ _)
      · intro id hid
        exact hagree id (List.mem_cons_of_mem _ ((List.dropLast_sublist _).mem hid))
    · obtain ⟨e, heB, heEq⟩ := lastPos_cons_mem b bs p
      rw [heEq, hagree e heB]
      have hold2 := hold.2
      have h2 : lastPos q (b :: bs) = Pos.node e := heEq
      rw [h2] at hold2
      exact hold2

/-- The shrink loop lands exactly on the highest occupied level. -/
theorem shrinkLevel_eq {u : SkipList} (m : Nat) :
    ∀ L, m ≤ L → (∀ j, m < j → j ≤ L → u.forwardAt .head j = none) →
      (m = 0 ∨ u.forwardAt .head m ≠ none) → u.shrinkLevel L = m := by
  intro L
  induction L with
  | zero =>
    intro hm _ _
    show 0 = m
    omega
  | succ L ih =>
    intro hm hnone hocc
    by_cases hML : m = L + 1
    · have hne : u.forwardAt .head (L + 1) ≠ none := by
        rcases hocc with h0 | hne
        · omega
        · rw [← hML]; exact hne
      show (if u.forwardAt .head (L + 1) = none then u.shrinkLevel L else L + 1) = m
      rw [if_neg hne, hML]
    · have hm' : m ≤ L := by omega
      have hnone1 : u.forwardAt .head (L + 1) = none :=
        hnone (L + 1) (by omega) (Nat.le_refl _)
      show (if u.forwardAt .head (L + 1) = none then u.shrinkLevel L else L + 1) = m
      rw [if_pos hnone1]
      exact ih hm' (fun j h1 h2 => hnone j h1 (by omega)) hocc

/-- Forward slots of live nodes (and of the header) only point at live
nodes. -/
theorem isChain_forward_mem {s : SkipList} {i : Nat} :
    ∀ {l : List Nat} {p : Pos}, IsChain s i p l →
      ∀ a ∈ l, ∀ y, s.forwardAt (.node a) i = some y → y ∈ l := by
  intro l
  induction l with
  | nil =>
    intro p _ a ha
    cases ha
  | cons b bs ih =>
    intro p hch a ha y hy
    obtain ⟨hfb, hrest⟩ := IsChain.cons_elim hch
    rcases List.mem_cons.mp ha with ha | ha
    · subst ha
      cases hbs : bs with
      | nil =>
        rw [hbs] at hrest
        have hend : s.forwardAt (.node a) i = none := hrest.2
        rw [hend] at hy
        cases hy
      | cons c cs =>
        rw [hbs] at hrest
        obtain ⟨hfc, _⟩ := IsChain.cons_elim hrest
        rw [hfc] at hy
        have hyc : c = y := by injection hy
        rw [hyc]
        exact List.mem_cons_of_mem _ (List.mem_cons_self _ _)
    · exact List.mem_cons_of_mem _ (ih hrest a ha y hy)

theorem rep_forward_head_mem {s : SkipList} {live : List Nat} (hrep : Rep s live)
    (i : Nat) (y : Nat) (hy : s.forwardAt .head i = some y) : y ∈ live := by
  by_cases hi : i ≤ s.max_level
  · rw [hrep.forwardAt_head hi] at hy
    cases hc : s.filterLevel i live with
    | nil => rw [hc] at hy; cases hy
    | cons b bs =>
      rw [hc] at hy
      have hyb : b = y := by injection hy
      rw [← hyb]
      exact (filterLevel_sublist s i live).mem (by rw [hc]; exact List.mem_cons_self _ _)
  · rw [forwardAt_head_none_of_max_lt hrep.hlen (by omega)] at hy
    cases hy

theorem rep_forward_node_mem {s : SkipList} {live : List Nat} (hrep : Rep s live)
    {id : Nat} (hid : id ∈ live) (i : Nat) (y : Nat)
    (hy : s.forwardAt (.node id) i = some y) : y ∈ live := by
  by_cases hh : i ≤ s.heightOf id
  · have hmem : id ∈ s.filterLevel i live := mem_filterLevel.mpr ⟨hid, hh⟩
    have hi : i ≤ s.max_level := Nat.le_trans hh (hrep.hbound id hid)
    have := isChain_forward_mem (hrep.chains i hi) id hmem y hy
    exact (filterLevel_sublist s i live).mem this
  · obtain ⟨n, hn⟩ := exists_node_of_lt (hrep.bounded id hid)
    have hlen := hrep.flen id hid n hn
    have hnone : s.forwardAt (.node id) i = none := by
      simp only [forwardAt, hn]
      rw [List.getElem?_eq_none (by omega)]
      rfl
    rw [hnone] at hy
    cases hy

theorem head?_eq_some_mem {α : Type} {l : List α} {a : α} (h : l.head? = some a) : a ∈ l := by
  cases l with
  | nil => cases h
  | cons b bs =>
    have hb : b = a := by injection h
    rw [← hb]
    exact List.mem_cons_self _ _

theorem mem_predList_zero_of_mem {s : SkipList} {live : List Nat} (hrep : Rep s live)
    {key : Int} {i : Nat} {id : Nat} (h : id ∈ predList s key i live) :
    id ∈ predList s key 0 live := by
  have h1 : id ∈ live := mem_live_of_mem_predList h
  have h2 : s.keyAt id < key := keyAt_lt_of_mem_predList h
  rw [predList, filterLevel_zero, takeWhile_eq_filter_sorted hrep.sorted]
  exact List.mem_filter.mpr ⟨h1, by simpa using h2⟩

/-- `delete` on a present key: the node is unlinked from every level,
the level shrinks to the new top occupancy, and the rest of the heap is
untouched. -/
theorem delete_found_spec {s : SkipList} {live : List Nat} (hrep : Rep s live) {key : Int}
    {nid : Nat} (hfind : live.find? (fun id => decide (s.keyAt id = key)) = some nid) :
    (s.delete key).1 = true ∧
    ∃ B' : List Nat, restList s key 0 live = nid :: B' ∧
      live = predList s key 0 live ++ nid :: B' ∧
      Rep (s.delete key).2 (predList s key 0 live ++ B') ∧
      nid ∉ predList s key 0 live ++ B' ∧
      (∀ id, (s.delete key).2.keyAt id = s.keyAt id) ∧
      (∀ id, (s.delete key).2.valueAt id = s.valueAt id) ∧
      (∀ id, (s.delete key).2.heightOf id = s.heightOf id) ∧
      (s.delete key).2.nodes.length = s.nodes.length ∧
      (s.delete key).2.max_level = s.max_level ∧
      (s.delete key).2.headerForward.length = s.max_level + 1 ∧
      (predList s key 0 live ++ B').length + 1 = live.length := by
  have hmem : nid ∈ live := List.mem_of_find?_eq_some hfind
  have hkey : s.keyAt nid = key := by simpa using List.find?_some hfind
  obtain ⟨n, hn⟩ := exists_node_of_lt (hrep.bounded nid hmem)
  have hnk : n.key = key := by rw [← keyAt_eq_of_mem hn]; exact hkey
  have hhead : (restList s key 0 live).head? = some nid := by
    have hmatch := find?_eq_restList_head hrep key
    rw [hfind] at hmatch
    cases hh : (restList s key 0 live).head? with
    | none => rw [hh] at hmatch; simp at hmatch
    | some b =>
      rw [hh] at hmatch
      have h2 : some nid = (if s.keyAt b = key then some b else none) := hmatch
      by_cases hb : s.keyAt b = key
      · rw [if_pos hb] at h2
        exact h2.symm
      · rw [if_neg hb] at h2
        simp at h2
  obtain ⟨B', hB'⟩ : ∃ B', restList s key 0 live = nid :: B' := by
    cases hc : restList s key 0 live with
    | nil => rw [hc] at hhead; cases hhead
    | cons b bs =>
      rw [hc] at hhead
      have hb : b = nid := by injection hhead
      exact ⟨bs, by rw [hb]⟩
  set A := predList s key 0 live with hAdef
  have hAB : A ++ nid :: B' = live := by
    rw [hAdef, ← hB']
    have h0 := predList_append_restList s key 0 live
    rwa [filterLevel_zero] at h0
  have hupd0 : s.updForward (s._find_updates key) 0 = some nid := by
    rw [updForward_find_updates hrep key (Nat.zero_le _), hB']
    rfl
  have hrun : s.delete key = (true,
      { unlinkGo (s._find_updates key) nid s 0 (s.level + 1) with
        level := (unlinkGo (s._find_updates key) nid s 0 (s.level + 1)).shrinkLevel s.level }) := by
    rw [delete]
    simp only [hupd0, hn, if_pos hnk]
  set s1 := unlinkGo (s._find_updates key) nid s 0 (s.level + 1) with hs1def
  have hupd : ∀ i, 0 ≤ i → i < 0 + (s.level + 1) →
      updAt (s._find_updates key) i = some (predPos s key i live) := by
    intro i _ hi
    rw [find_updates_updAt hrep key, if_pos (by omega)]
  have hPx : ∀ i, 0 ≤ i → i < 0 + (s.level + 1) → predPos s key i live ≠ .node nid := by
    intro i _ _
    cases hA0 : predList s key i live with
    | nil =>
      rw [predPos, hA0]
      intro hcon
      cases hcon
    | cons y ys =>
      obtain ⟨a, haMem, haEq⟩ := lastPos_cons_mem y ys .head
      rw [predPos, hA0, haEq]
      intro hcon
      have haid : a = nid := by injection hcon
      have hlt : s.keyAt a < key := keyAt_lt_of_mem_predList (by rw [hA0]; exact haMem)
      rw [haid, hkey] at hlt
      exact lt_irrefl _ hlt
  obtain ⟨hmain, haway⟩ := unlinkGo_forwardAt (s._find_updates key) nid
    (fun i => predPos s key i live) (s.level + 1) 0 s hupd hPx
  have hshape : SameShape s1 s := by
    rw [hs1def]
    exact unlinkGo_sameShape _ _ _ _ _
  have hnidB' : nid ∉ B' := by
    have h2 := hrep.nodup
    rw [← hAB, List.nodup_middle, List.nodup_cons] at h2
    intro hcon
    exact h2.1 (List.mem_append_right A hcon)
  have hnidNot : nid ∉ A ++ B' := by
    have h2 := hrep.nodup
    rw [← hAB, List.nodup_middle, List.nodup_cons] at h2
    exact h2.1
  have hguard : ∀ i, i ≤ s.level →
      s1.forwardAt (predPos s key i live) i = (s.filterLevel i B').head? := by
    intro i hi
    have himax : i ≤ s.max_level := Nat.le_trans hi hrep.level_le
    have hfp : s.forwardAt (predPos s key i live) i = (restList s key i live).head? :=
      forwardAt_predPos hrep key himax
    have hrl : restList s key i live = s.filterLevel i (nid :: B') := by
      rw [← hB']
      exact (filterLevel_restList hrep key i).symm
    have hmain' := hmain i (by omega) (by omega)
    by_cases hht : i ≤ s.heightOf nid
    · have hrl2 : restList s key i live = nid :: s.filterLevel i B' := by
        rw [hrl, filterLevel, List.filter_cons]
        have hd : decide (i ≤ s.heightOf nid) = true := by simpa using hht
        rw [hd]
        rfl
      have hguardT : s.forwardAt (predPos s key i live) i = some nid := by
        rw [hfp, hrl2]
        rfl
      rw [hmain', if_pos hguardT]
      have hch := isChain_restList hrep key himax
      rw [hrl2] at hch
      exact (IsChain.cons_elim hch).2.head?_eq
    · have hrl2 : restList s key i live = s.filterLevel i B' := by
        rw [hrl, filterLevel, List.filter_cons]
        have hd : decide (i ≤ s.heightOf nid) = false := by simpa using hht
        rw [hd]
        rfl
      have hguardF : ¬ s.forwardAt (predPos s key i live) i = some nid := by
        rw [hfp, hrl2]
        cases hc : (s.filterLevel i B').head? with
        | none => simp
        | some e =>
          intro hcon
          have he : e = nid := by injection hcon
          have heB : e ∈ B' := by
            have h3 : e ∈ s.filterLevel i B' := head?_eq_some_mem hc
            exact (List.mem_filter.mp h3).1
          rw [he] at heB
          exact hnidB' heB
      rw [hmain', if_neg hguardF, hfp, hrl2]
  have haway1 : ∀ (p : Pos) (i : Nat), (s.level < i ∨ p ≠ predPos s key i live) →
      s1.forwardAt p i = s.forwardAt p i := by
    intro p i hc
    apply haway p i
    rcases hc with hc | hc
    · exact Or.inr (Or.inl (by omega))
    · exact Or.inr (Or.inr hc)
  have hlive'_sub : (A ++ B').Sublist live := by
    rw [← hAB]
    exact (List.append_sublist_append_left A).mpr (List.sublist_cons_self nid B')
  have hnodup' : (A ++ B').Nodup := List.Nodup.sublist hlive'_sub hrep.nodup
  have hdisjAB' : ∀ a ∈ A, a ∉ B' := by
    intro a ha hb
    obtain ⟨_, _, hd⟩ := List.nodup_append.mp hnodup'
    exact hd ha hb
  -- chains of the unlinked state
  have hchains1 : ∀ i, i ≤ s.max_level →
      IsChain s1 i .head (s.filterLevel i (A ++ B')) := by
    intro i hi
    have hsplitAB : s.filterLevel i (A ++ B') =
        predList s key i live ++ s.filterLevel i B' := by
      rw [filterLevel, List.filter_append]
      show s.filterLevel i A ++ s.filterLevel i B' = _
      rw [hAdef, filterLevel_predList hrep key i]
    rw [hsplitAB]
    by_cases hlev : i ≤ s.level
    · have hchainC : IsChain s i .head (predList s key i live ++ restList s key i live) := by
        rw [predList_append_restList]
        exact hrep.chains i hi
      have hLA_s : Links s i .head (predList s key i live) (predPos s key i live) :=
        (Links.append_split hchainC.1).1
      have hagreeA : ∀ p : Pos, (∀ id, p = .node id → id < s.nodes.length) →
          p ≠ predPos s key i live → p ≠ .node s.nodes.length →
          s1.forwardAt p i = s.forwardAt p i :=
        fun p _ hne _ => haway1 p i (Or.inr hne)
      have hLA_t : Links s1 i .head (predList s key i live) (predPos s key i live) :=
        links_transport_pred hrep key rfl hLA_s hagreeA
      have hagreeB : ∀ id ∈ s.filterLevel i B',
          s1.forwardAt (.node id) i = s.forwardAt (.node id) i := by
        intro id hidB
        have hidB' : id ∈ B' := (List.mem_filter.mp hidB).1
        refine haway1 _ i (Or.inr ?_)
        cases hA0 : predList s key i live with
        | nil =>
          rw [predPos, hA0]
          intro hcon
          cases hcon
        | cons y ys =>
          have hne0 : predList s key i live ≠ [] := by rw [hA0]; simp
          rw [predPos, lastPos_eq_getLast _ _ hne0]
          intro hcon
          have hg : id = (predList s key i live).getLast hne0 := by injection hcon
          have hgA : (predList s key i live).getLast hne0 ∈ predList s key i live :=
            List.getLast_mem hne0
          have hgA0 : (predList s key i live).getLast hne0 ∈ A :=
            mem_predList_zero_of_mem hrep hgA
          rw [← hg] at hgA0
          exact hdisjAB' id hgA0 hidB'
      have hold : IsChain s i
          (if i ≤ s.heightOf nid then Pos.node nid else predPos s key i live)
          (s.filterLevel i B') := by
        have hrl : restList s key i live = s.filterLevel i (nid :: B') := by
          rw [← hB']
          exact (filterLevel_restList hrep key i).symm
        by_cases hht : i ≤ s.heightOf nid
        · rw [if_pos hht]
          have hrl2 : restList s key i live = nid :: s.filterLevel i B' := by
            rw [hrl, filterLevel, List.filter_cons]
            have hd : decide (i ≤ s.heightOf nid) = true := by simpa using hht
            rw [hd]
            rfl
          have hch := isChain_restList hrep key hi
          rw [hrl2] at hch
          exact (IsChain.cons_elim hch).2
        · rw [if_neg hht]
          have hrl2 : restList s key i live = s.filterLevel i B' := by
            rw [hrl, filterLevel, List.filter_cons]
            have hd : decide (i ≤ s.heightOf nid) = false := by simpa using hht
            rw [hd]
            rfl
          have hch := isChain_restList hrep key hi
          rwa [hrl2] at hch
      have hML : IsChain s1 i (predPos s key i live) (s.filterLevel i B') :=
        links_transport_gen hold (hguard i hlev) hagreeB
      have hL : Links s1 i .head (predList s key i live ++ s.filterLevel i B')
          (lastPos (predPos s key i live) (s.filterLevel i B')) :=
        Links.append hLA_t hML.1
      have heqLP := Links.eq_lastPos hL
      refine ⟨?_, ?_⟩
      · rw [← heqLP]
        exact hL
      · rw [← heqLP]
        exact hML.2
    · -- above the current level: everything is empty and untouched
      have hnil : s.filterLevel i live = [] := by
        apply filterLevel_eq_nil_of_maxH_lt
        rw [← hrep.levelEq]
        omega
      have hnilA : predList s key i live = [] := by
        rw [predList, hnil]
        rfl
      have hnilB : s.filterLevel i B' = [] := by
        have hsub : (s.filterLevel i B').Sublist (s.filterLevel i live) := by
          apply List.Sublist.filter
          refine List.Sublist.trans ?_ hlive'_sub
          exact List.sublist_append_right A B'
        rw [hnil] at hsub
        exact List.sublist_nil.mp hsub
      rw [hnilA, hnilB]
      show IsChain s1 i .head []
      refine ⟨Links.nil _, ?_⟩
      show s1.forwardAt .head i = none
      rw [haway1 .head i (Or.inl (by omega)), hrep.forwardAt_head hi, hnil]
      rfl
  -- the shrink step
  have hm_le : s.maxH (A ++ B') ≤ s.level := by
    rw [hrep.levelEq]
    exact maxH_le (fun id hid => le_maxH_of_mem (hlive'_sub.mem hid))
  have hshrink : s1.shrinkLevel s.level = s.maxH (A ++ B') := by
    apply shrinkLevel_eq _ s.level hm_le
    · intro j hmj hjL
      have hj : j ≤ s.max_level := Nat.le_trans hjL hrep.level_le
      rw [(hchains1 j hj).head?_eq, filterLevel_eq_nil_of_maxH_lt hmj]
      rfl
    · by_cases hm0 : s.maxH (A ++ B') = 0
      · exact Or.inl hm0
      · right
        have hj : s.maxH (A ++ B') ≤ s.max_level := Nat.le_trans hm_le hrep.level_le
        rw [(hchains1 _ hj).head?_eq]
        have hne : A ++ B' ≠ [] := by
          intro hcon
          rw [hcon] at hm0
          exact hm0 rfl
        obtain ⟨e, heMem, heEq⟩ := maxH_attained hne
        have hmm : e ∈ s.filterLevel (s.maxH (A ++ B')) (A ++ B') :=
          mem_filterLevel.mpr ⟨heMem, by rw [heEq]⟩
        cases hc : s.filterLevel (s.maxH (A ++ B')) (A ++ B') with
        | nil => rw [hc] at hmm; cases hmm
        | cons u us => simp
  -- the final state
  rw [hrun]
  refine ⟨rfl, B', hB', hAB.symm, ?_, hnidNot, ?_, ?_, ?_, ?_, ?_, ?_, ?_⟩
  · -- Rep of the final state
    have hkeysF : ∀ id, ({ s1 with level := s1.shrinkLevel s.level } : SkipList).keyAt id
        = s.keyAt id := fun id => (keyAt_ext rfl id).trans (hshape.keys id)
    have hhtsF : ∀ id, ({ s1 with level := s1.shrinkLevel s.level } : SkipList).heightOf id
        = s.heightOf id := fun id => (heightOf_ext rfl id).trans (hshape.heightOf id)
    have hfaF : ∀ (p : Pos) (i : Nat),
        ({ s1 with level := s1.shrinkLevel s.level } : SkipList).forwardAt p i
        = s1.forwardAt p i := fun p i => forwardAt_ext rfl rfl p i
    refine ⟨hnodup', ?_, ?_, ?_, ?_, ?_, ?_, ?_⟩
    · intro id hid
      show id < s1.nodes.length
      rw [hshape.nlen]
      exact hrep.bounded id (hlive'_sub.mem hid)
    · exact (List.Pairwise.sublist hlive'_sub hrep.sorted).imp_of_mem
        (fun ha hb hr => by rw [hkeysF, hkeysF]; exact hr)
    · intro id hid
      rw [hhtsF]
      show s.heightOf id ≤ s1.max_level
      rw [hshape.maxl]
      exact hrep.hbound id (hlive'_sub.mem hid)
    · intro id hid nn hnn
      have hmap := hshape.flen id
      have hnn' : s1.nodes[id]? = some nn := hnn
      rw [hnn'] at hmap
      cases h2 : s.nodes[id]? with
      | none => rw [h2] at hmap; simp at hmap
      | some n0 =>
        rw [h2] at hmap
        simp at hmap
        rw [hmap, hhtsF]
        exact hrep.flen id (hlive'_sub.mem hid) n0 h2
    · show s1.shrinkLevel s.level = _
      rw [hshrink]
      exact (maxH_congr (fun id _ => hhtsF id)).symm
    · show s1.headerForward.length = s1.max_level + 1
      rw [hshape.hlen, hshape.maxl]
      exact hrep.hlen
    · intro i hi
      have hi' : i ≤ s.max_level := by
        have hi2 : i ≤ s1.max_level := hi
        have hmx := hshape.maxl
        omega
      rw [filterLevel_congr i (fun id hid => hhtsF id)]
      exact IsChain.of_forward_agree (fun p' => hfaF p' i) (hchains1 i hi')
  · exact fun id => (keyAt_ext rfl id).trans (hshape.keys id)
  · exact fun id => (valueAt_ext rfl id).trans (hshape.vals id)
  · exact fun id => (heightOf_ext rfl id).trans (hshape.heightOf id)
  · show s1.nodes.length = s.nodes.length
    exact hshape.nlen
  · show s1.max_level = s.max_level
    exact hshape.maxl
  · show s1.headerForward.length = _
    rw [hshape.hlen]
    exact hrep.hlen
  · rw [← hAB]
    simp only [List.length_append, List.length_cons]
    omega

/-- `delete` on an absent key returns `False` and the state unchanged. -/
theorem delete_notfound_spec {s : SkipList} {live : List Nat} (hrep : Rep s live) {key : Int}
    (hfind : live.find? (fun id => decide (s.keyAt id = key)) = none) :
    s.delete key = (false, s) := by
  cases hrl : restList s key 0 live with
  | nil =>
    have hupd0 : s.updForward (s._find_updates key) 0 = none := by
      rw [updForward_find_updates hrep key (Nat.zero_le _), hrl]
      rfl
    rw [delete]
    simp only [hupd0]
  | cons b bs =>
    have hb_mem : b ∈ restList s key 0 live := by
      rw [hrl]
      exact List.mem_cons_self b bs
    have hbl : b ∈ live := mem_live_of_mem_restList hb_mem
    obtain ⟨n, hn⟩ := exists_node_of_lt (hrep.bounded b hbl)
    have hbk : s.keyAt b ≠ key := by
      have := List.find?_eq_none.mp hfind b hbl
      simpa using this
    have hnk : ¬n.key = key := by
      rw [← keyAt_eq_of_mem hn]
      exact hbk
    have hupd0 : s.updForward (s._find_updates key) 0 = some b := by
      rw [updForward_find_updates hrep key (Nat.zero_le _), hrl]
      rfl
    rw [delete]
    simp only [hupd0, hn, if_neg hnk]

/-- The freshly constructed list is represented by the empty id list. -/
theorem rep_mk (max_level : Nat) : Rep (mkSkipList max_level) [] := by
  refine ⟨List.nodup_nil, ?_, List.Pairwise.nil, ?_, ?_, rfl, ?_, ?_⟩
  · intro id hid
    cases hid
  · intro id hid
    cases hid
  · intro id hid
    cases hid
  · show (List.replicate (max_level + 1) (none : Option Nat)).length = max_level + 1
    exact List.length_replicate _ _
  · intro i _
    refine ⟨Links.nil _, ?_⟩
    show ((List.replicate (max_level + 1) (none : Option Nat))[i]?).getD none = none
    rw [List.getElem?_replicate]
    by_cases hlt : i < max_level + 1 <;> simp [hlt]

/-- Every reachable state is a well-formed skip list. -/
theorem reachable_rep {s : SkipList} (h : Reachable s) : ∃ live, Rep s live := by
  induction h with
  | init m => exact ⟨[], rep_mk m⟩
  | @ins s key value draws _ ih =>
    obtain ⟨live, hrep⟩ := ih
    cases hf : live.find? (fun id => decide (s.keyAt id = key)) with
    | some nid =>
      obtain ⟨n, hn, hnk, heq⟩ := insert_found hrep hf value draws
      rw [heq]
      exact ⟨live, rep_set_value hrep hn value⟩
    | none =>
      exact ⟨_, (insert_new_spec hrep hf value draws).1⟩
  | @del s key _ ih =>
    obtain ⟨live, hrep⟩ := ih
    cases hf : live.find? (fun id => decide (s.keyAt id = key)) with
    | some nid =>
      obtain ⟨_, B', _, _, hrep', _⟩ := delete_found_spec hrep hf
      exact ⟨_, hrep'⟩
    | none =>
      rw [delete_notfound_spec hrep hf]
      exact ⟨live, hrep⟩

/-!
## Display and membership
-/

theorem display_keys {s : SkipList} {live : List Nat} (hrep : Rep s live) :
    (s.display).map Prod.fst = live.map s.keyAt := by
  rw [display_eq hrep, List.map_map]
  rfl

theorem mem_display_iff {s : SkipList} {live : List Nat} (hrep : Rep s live) (k : Int) :
    k ∈ (s.display).map Prod.fst ↔ ∃ id ∈ live, s.keyAt id = k := by
  rw [display_keys hrep]
  simp [List.mem_map]

theorem find?_isSome_iff (s : SkipList) (live : List Nat) (key : Int) :
    (live.find? (fun id => decide (s.keyAt id = key))).isSome = true ↔
      ∃ id ∈ live, s.keyAt id = key := by
  rw [List.find?_isSome]
  simp

theorem key_unique {s : SkipList} {live : List Nat} (hrep : Rep s live) {a b : Nat}
    (ha : a ∈ live) (hb : b ∈ live) (hk : s.keyAt a = s.keyAt b) : a = b := by
  by_contra hab
  have hne : live.Pairwise (fun x y => s.keyAt x ≠ s.keyAt y) :=
    hrep.sorted.imp (fun h => ne_of_lt h)
  have hsym : Symmetric (fun x y => s.keyAt x ≠ s.keyAt y) := fun x y h => h.symm
  exact List.Pairwise.forall hsym hne ha hb hab hk

/-- After any `insert k v`, some live node carries the key `k`. -/
theorem insert_rep_key_mem {s : SkipList} {live : List Nat} (hrep : Rep s live)
    (k : Int) (v : Option Int) (draws : Nat → Bool) :
    ∃ live', Rep (s.insert k v draws) live' ∧
      ∃ id ∈ live', (s.insert k v draws).keyAt id = k := by
  cases hf : live.find? (fun id => decide (s.keyAt id = k)) with
  | some nid =>
    obtain ⟨n, hn, hnk, heq⟩ := insert_found hrep hf v draws
    refine ⟨live, by rw [heq]; exact rep_set_value hrep hn v, nid,
      List.mem_of_find?_eq_some hf, ?_⟩
    rw [heq, keyAt_set_value hn v]
    simpa using List.find?_some hf
  | none =>
    obtain ⟨hrep', hK, _⟩ := insert_new_spec hrep hf v draws
    exact ⟨_, hrep', s.nodes.length,
      List.mem_append_right _ (List.mem_cons_self _ _), hK⟩

theorem nodesKey_set_value {s : SkipList} {nid : Nat} {n : Node}
    (hn : s.nodes[nid]? = some n) (v : Option Int) (id : Nat) :
    ((({ s with nodes := s.nodes.set nid { n with value := v } } : SkipList)).nodes[id]?).map
        (fun nd => nd.key) = (s.nodes[id]?).map (fun nd => nd.key) := by
  have hlt : nid < s.nodes.length := (List.getElem?_eq_some.mp hn).1
  by_cases hid : nid = id
  · subst hid
    simp [List.getElem?_set_self hlt, hn]
  · simp [List.getElem?_set_ne hid]

theorem nodesForward_set_value {s : SkipList} {nid : Nat} {n : Node}
    (hn : s.nodes[nid]? = some n) (v : Option Int) (id : Nat) :
    ((({ s with nodes := s.nodes.set nid { n with value := v } } : SkipList)).nodes[id]?).map
        (fun nd => nd.forward) = (s.nodes[id]?).map (fun nd => nd.forward) := by
  have hlt : nid < s.nodes.length := (List.getElem?_eq_some.mp hn).1
  by_cases hid : nid = id
  · subst hid
    simp [List.getElem?_set_self hlt, hn]
  · simp [List.getElem?_set_ne hid]

end SkipList

open SkipList

/-!
## The claims

Each claim of the specification is settled by one theorem below.
"Reachable" quantifies over every state obtainable from a freshly
constructed list by any sequence of `insert` and `delete` calls.
-/

/-- C1: For every skip list state, every key `k` and every value `v`,
calling `insert(k, v)` and then `search(k)` on the resulting state
returns `v`. -/
theorem C1_insert_then_search_returns_value {s : SkipList} (hs : Reachable s)
    (k : Int) (v : Option Int) (draws : Nat → Bool) :
    (s.insert k v draws).search k = v := by
  obtain ⟨live, hrep⟩ := reachable_rep hs
  exact insert_search_rep hrep k v draws

theorem C1_witness :
    ((mkSkipList 4).insert 5 (some 7) (fun _ => false)).search 5 = some 7 :=
  C1_insert_then_search_returns_value (Reachable.init 4) 5 (some 7) (fun _ => false)

/-- C4: Strict sortedness is an invariant preserved by every operation:
in every reachable state, at every level `i` the sequence of keys reached
by following `forward[i]` from the header is strictly increasing. -/
theorem C4_levels_strictly_sorted {s : SkipList} (hs : Reachable s) (i : Nat) :
    (s.levelKeys i).Pairwise (fun a b => a < b) := by
  obtain ⟨live, hrep⟩ := reachable_rep hs
  rw [levelKeys, levelIds_eq hrep i]
  exact List.pairwise_map.mpr (hrep.chain_sorted i)

theorem C4_witness :
    ((((mkSkipList 2).insert 5 (some 1) (fun _ => true)).insert 3 (some 2)
        (fun _ => false)).levelKeys 0).Pairwise (fun a b => a < b) :=
  C4_levels_strictly_sorted
    (Reachable.ins 3 (some 2) (fun _ => false)
      (Reachable.ins 5 (some 1) (fun _ => true) (Reachable.init 2))) 0

/-- C5: Monotone participation: in every reachable state and for every
level `i` below the current level, every node reached by following
`forward[i+1]` from the header is also reached at level `i`. -/
theorem C5_upper_levels_subsets {s : SkipList} (hs : Reachable s) (i : Nat)
    (hi : i < s.level) : ∀ id ∈ s.levelIds (i + 1), id ∈ s.levelIds i := by
  obtain ⟨live, hrep⟩ := reachable_rep hs
  intro id hid
  rw [levelIds_eq hrep] at hid ⊢
  rw [mem_filterLevel] at hid ⊢
  exact ⟨hid.1, Nat.le_of_succ_le hid.2⟩

theorem C5_witness :
    (0 : Nat) ∈ (((mkSkipList 2)).insert 5 (some 1) (fun _ => true)).levelIds 0 :=
  C5_upper_levels_subsets
    (Reachable.ins 5 (some 1) (fun _ => true) (Reachable.init 2)) 0 (by decide) 0
    (by decide)

/-- C7: The keyed-access sugar fails exactly on missing keys: for every
state and key, `__getitem__` yields the key-not-found failure iff `search`
reports the key absent (and otherwise returns the stored value), and
`__delitem__` yields the same failure iff `delete` returns false; the core
operations themselves are total functions that never yield this failure. -/
theorem C7_keyed_sugar_fails_iff_missing (s : SkipList) (k : Int) :
    (s.getItem k = Except.error k ↔ s.search k = none) ∧
    (∀ v, s.getItem k = Except.ok v ↔ s.search k = some v) ∧
    (s.delItem k = Except.error k ↔ (s.delete k).1 = false) ∧
    ((s.delete k).1 = true → s.delItem k = Except.ok (s.delete k).2) := by
  refine ⟨?_, ?_, ?_, ?_⟩
  · rw [getItem]
    cases hs : s.search k <;> simp
  · intro v
    rw [getItem]
    cases hs : s.search k <;> simp
  · cases hb : (s.delete k).1 <;> simp [delItem, hb]
  · intro hb
    simp [delItem, hb]

theorem C7_witness :
    (mkSkipList 2).getItem 5 = Except.error 5 ∧ ((mkSkipList 2).delete 5).1 = false :=
  ⟨((C7_keyed_sugar_fails_iff_missing (mkSkipList 2) 5).1).mpr (by decide),
   ((C7_keyed_sugar_fails_iff_missing (mkSkipList 2) 5).2.2.1).mp rfl⟩

/-- C8: For every outcome of the randomness source the level generator
returns a number in `[0, max_level]` (it is a total function, so it never
fails); below the cap, the result reaches `k` exactly when the first `k`
draws all succeed, so the growth is cut off at `max_level` rather than
resampled. -/
theorem C8_random_level_in_range (s : SkipList) (draws : Nat → Bool) :
    s._random_level draws ≤ s.max_level ∧
    ∀ k, k ≤ s.max_level →
      (k ≤ s._random_level draws ↔ ∀ j, j < k → draws j = true) := by
  refine ⟨ _random_level_le s draws, ?_⟩
  intro k hk
  have h := randomLevelGo_ge_iff draws s.max_level 0 0 k hk
  simpa [_random_level] using h

theorem C8_witness :
    (mkSkipList 2)._random_level (fun _ => true) ≤ 2 ∧
    2 ≤ (mkSkipList 2)._random_level (fun _ => true) :=
  ⟨(C8_random_level_in_range (mkSkipList 2) (fun _ => true)).1,
   ((C8_random_level_in_range (mkSkipList 2) (fun _ => true)).2 2
      (by decide)).mpr (by decide)⟩

/-- C6: Level occupancy is an invariant preserved by every operation:
in every reachable state, whenever the current level is positive the
header's forward pointer at that level is non-null, and above the current
level every header slot is null — so after a deletion empties the top
lane, the stored level is again the topmost occupied level (or 0). -/
theorem C6_current_level_occupied {s : SkipList} (hs : Reachable s) :
    (0 < s.level → s.forwardAt .head s.level ≠ none) ∧
    ∀ i, s.level < i → s.forwardAt .head i = none := by
  obtain ⟨live, hrep⟩ := reachable_rep hs
  constructor
  · intro hpos
    have hne : live ≠ [] := by
      intro hnil
      rw [hrep.levelEq, hnil] at hpos
      exact absurd hpos (by simp [maxH])
    obtain ⟨id, hid, hmax⟩ := maxH_attained hne
    have hidf : id ∈ s.filterLevel s.level live :=
      mem_filterLevel.mpr ⟨hid, by rw [hrep.levelEq, hmax]⟩
    rw [hrep.forwardAt_head hrep.level_le]
    cases hc : s.filterLevel s.level live with
    | nil => rw [hc] at hidf; exact absurd hidf (by simp)
    | cons b bs => simp
  · intro i hi
    by_cases hmax : i ≤ s.max_level
    · rw [hrep.forwardAt_head hmax, filterLevel_eq_nil_of_maxH_lt
        (by rw [← hrep.levelEq]; omega)]
      rfl
    · exact forwardAt_head_none_of_max_lt hrep.hlen (by omega)

theorem C6_witness :
    (((mkSkipList 2).insert 5 (some 1) (fun _ => true)).forwardAt Pos.head
        ((mkSkipList 2).insert 5 (some 1) (fun _ => true)).level ≠ none) ∧
    ((mkSkipList 2).insert 5 (some 1) (fun _ => true)).forwardAt Pos.head 3 = none :=
  ⟨(C6_current_level_occupied
      (Reachable.ins 5 (some 1) (fun _ => true) (Reachable.init 2))).1 (by decide),
   (C6_current_level_occupied
      (Reachable.ins 5 (some 1) (fun _ => true) (Reachable.init 2))).2 3 (by decide)⟩

/-- C10: Storing the sentinel value `None` makes a key observably absent
at the public interface: after `insert(k, None)` on any reachable state,
the key is still linked at level 0 (it appears among the displayed keys
and `len` counts every displayed entry), yet `search(k)` reports it
absent, `__contains__` returns false, and `__getitem__` raises the
key-not-found failure. -/
theorem C10_none_value_observably_absent {s : SkipList} (hs : Reachable s)
    (k : Int) (draws : Nat → Bool) :
    k ∈ ((s.insert k none draws).display).map Prod.fst ∧
    (s.insert k none draws).len = ((s.insert k none draws).display).length ∧
    (s.insert k none draws).search k = none ∧
    (s.insert k none draws).containsKey k = false ∧
    (s.insert k none draws).getItem k = Except.error k := by
  obtain ⟨live, hrep⟩ := reachable_rep hs
  obtain ⟨live', hrep', id, hid, hkey⟩ := insert_rep_key_mem hrep k none draws
  have hsearch : (s.insert k none draws).search k = none :=
    insert_search_rep hrep k none draws
  refine ⟨?_, ?_, hsearch, ?_, ?_⟩
  · exact (mem_display_iff hrep' k).mpr ⟨id, hid, hkey⟩
  · rw [len_eq hrep', display_eq hrep', List.length_map]
  · rw [containsKey, hsearch]
    rfl
  · rw [getItem, hsearch]

theorem C10_witness :
    (5 : Int) ∈ (((mkSkipList 3).insert 5 none (fun _ => false)).display).map Prod.fst ∧
    ((mkSkipList 3).insert 5 none (fun _ => false)).len =
      (((mkSkipList 3).insert 5 none (fun _ => false)).display).length ∧
    ((mkSkipList 3).insert 5 none (fun _ => false)).search 5 = none ∧
    ((mkSkipList 3).insert 5 none (fun _ => false)).containsKey 5 = false ∧
    ((mkSkipList 3).insert 5 none (fun _ => false)).getItem 5 = Except.error 5 :=
  C10_none_value_observably_absent (Reachable.init 3) 5 (fun _ => false)

/-- C2: For every reachable state: if key `k` is present (appears among
the level-0 keys), `delete k` returns true, a subsequent `search k`
reports the key absent, and `len` decreases by exactly 1; if `k` is
absent, `delete k` returns false and the entire state is unchanged. -/
theorem C2_delete_correct {s : SkipList} (hs : Reachable s) (k : Int) :
    (k ∈ (s.display).map Prod.fst →
      (s.delete k).1 = true ∧
      (s.delete k).2.search k = none ∧
      (s.delete k).2.len + 1 = s.len) ∧
    (k ∉ (s.display).map Prod.fst → s.delete k = (false, s)) := by
  obtain ⟨live, hrep⟩ := reachable_rep hs
  constructor
  · intro hk
    obtain ⟨id0, hid0, hkey0⟩ := (mem_display_iff hrep k).mp hk
    have hfs : (live.find? (fun id => decide (s.keyAt id = k))).isSome = true :=
      (find?_isSome_iff s live k).mpr ⟨id0, hid0, hkey0⟩
    obtain ⟨nid, hf⟩ := Option.isSome_iff_exists.mp hfs
    obtain ⟨htrue, B', hrl, hsplit, hrep', hnotin, hkeys, hvals, hhts, hnlen, hml,
      hhl, hlen⟩ := delete_found_spec hrep hf
    have hknid : s.keyAt nid = k := by simpa using List.find?_some hf
    refine ⟨htrue, ?_, ?_⟩
    · rw [search_spec hrep' k, find?_key_congr k hkeys _]
      have hnone : (predList s k 0 live ++ B').find?
          (fun id => decide (s.keyAt id = k)) = none := by
        rw [List.find?_eq_none]
        intro x hx
        simp only [decide_eq_true_eq]
        intro hxk
        have hxl : x ∈ live := by
          rw [hsplit]
          rcases List.mem_append.mp hx with h | h
          · exact List.mem_append_left _ h
          · exact List.mem_append_right _ (List.mem_cons_of_mem _ h)
        have hxe : x = nid := key_unique hrep hxl (List.mem_of_find?_eq_some hf)
          (by rw [hxk, hknid])
        rw [hxe] at hx
        exact hnotin hx
      rw [hnone]
      rfl
    · rw [len_eq hrep', len_eq hrep]
      exact hlen
  · intro hk
    cases hf : live.find? (fun id => decide (s.keyAt id = k)) with
    | some nid =>
      exact absurd ((mem_display_iff hrep k).mpr
        ⟨nid, List.mem_of_find?_eq_some hf, by simpa using List.find?_some hf⟩) hk
    | none => exact delete_notfound_spec hrep hf

theorem C2_witness :
    ((((mkSkipList 2).insert 5 (some 1) (fun _ => false)).delete 5).1 = true) ∧
    ((((mkSkipList 2).insert 5 (some 1) (fun _ => false)).delete 5).2.search 5 = none) ∧
    ((((mkSkipList 2).insert 5 (some 1) (fun _ => false)).delete 5).2.len + 1 =
      ((mkSkipList 2).insert 5 (some 1) (fun _ => false)).len) :=
  (C2_delete_correct
    (Reachable.ins 5 (some 1) (fun _ => false) (Reachable.init 2)) 5).1 (by decide)

/-- C3: Inserting an already-present key overwrites only the stored value
of the existing node: `insert` is exactly a value overwrite on that node,
so no node is created, no forward link or node height changes, the current
level and header are unchanged, `len` is unchanged, and `k` appears exactly
once among the level-0 keys. -/
theorem C3_upsert_overwrites_in_place {s : SkipList} (hs : Reachable s) {k : Int}
    (hk : k ∈ (s.display).map Prod.fst) (v : Option Int) (draws : Nat → Bool) :
    (∃ nid n, s.nodes[nid]? = some n ∧ n.key = k ∧
      s.insert k v draws =
        { s with nodes := s.nodes.set nid { n with value := v } }) ∧
    (s.insert k v draws).nodes.length = s.nodes.length ∧
    (s.insert k v draws).level = s.level ∧
    (s.insert k v draws).headerForward = s.headerForward ∧
    (∀ id : Nat, ((s.insert k v draws).nodes[id]?).map (fun nd => nd.key) =
      (s.nodes[id]?).map (fun nd => nd.key)) ∧
    (∀ id : Nat, ((s.insert k v draws).nodes[id]?).map (fun nd => nd.forward) =
      (s.nodes[id]?).map (fun nd => nd.forward)) ∧
    (s.insert k v draws).len = s.len ∧
    ((s.insert k v draws).display).map Prod.fst = (s.display).map Prod.fst ∧
    (((s.insert k v draws).display).map Prod.fst).count k = 1 := by
  obtain ⟨live, hrep⟩ := reachable_rep hs
  obtain ⟨id0, hid0, hkey0⟩ := (mem_display_iff hrep k).mp hk
  have hfs : (live.find? (fun id => decide (s.keyAt id = k))).isSome = true :=
    (find?_isSome_iff s live k).mpr ⟨id0, hid0, hkey0⟩
  obtain ⟨nid, hf⟩ := Option.isSome_iff_exists.mp hfs
  obtain ⟨n, hn, hnk, heq⟩ := insert_found hrep hf v draws
  have hrep' : Rep (s.insert k v draws) live := by
    rw [heq]
    exact rep_set_value hrep hn v
  have hkeys : ∀ id, (s.insert k v draws).keyAt id = s.keyAt id := by
    intro id
    rw [heq]
    exact keyAt_set_value hn v id
  have hdisp : ((s.insert k v draws).display).map Prod.fst = live.map s.keyAt := by
    rw [display_keys hrep']
    exact List.map_congr_left (fun id _ => hkeys id)
  refine ⟨⟨nid, n, hn, hnk, heq⟩, ?_, ?_, ?_, ?_, ?_, ?_, ?_, ?_⟩
  · rw [heq]
    exact List.length_set _ _ _
  · rw [heq]
  · rw [heq]
  · intro id
    rw [heq]
    exact nodesKey_set_value hn v id
  · intro id
    rw [heq]
    exact nodesForward_set_value hn v id
  · rw [len_eq hrep', len_eq hrep]
  · rw [hdisp, display_keys hrep]
  · rw [hdisp]
    have hnodup : (live.map s.keyAt).Nodup :=
      (List.pairwise_map.mpr hrep.sorted).imp (fun h => ne_of_lt h)
    have hkmem : k ∈ live.map s.keyAt :=
      List.mem_map.mpr ⟨nid, List.mem_of_find?_eq_some hf,
        by simpa using List.find?_some hf⟩
    exact List.count_eq_one_of_mem hnodup hkmem

theorem C3_witness :
    (((mkSkipList 2).insert 5 (some 1) (fun _ => false)).insert 5 (some 9)
        (fun _ => true)).len =
      ((mkSkipList 2).insert 5 (some 1) (fun _ => false)).len ∧
    (((((mkSkipList 2).insert 5 (some 1) (fun _ => false)).insert 5 (some 9)
        (fun _ => true)).display).map Prod.fst).count 5 = 1 :=
  ⟨(C3_upsert_overwrites_in_place
      (Reachable.ins 5 (some 1) (fun _ => false) (Reachable.init 2))
      (by decide) (some 9) (fun _ => true)).2.2.2.2.2.2.1,
   (C3_upsert_overwrites_in_place
      (Reachable.ins 5 (some 1) (fun _ => false) (Reachable.init 2))
      (by decide) (some 9) (fun _ => true)).2.2.2.2.2.2.2.2⟩

/-- C9: In every reachable state the current level bounds the height of
every real node (no node's forward array extends above `self.level`), and
consequently deleting a present key severs every forward reference to the
removed node: afterwards neither the header nor any remaining node points
to it at any level. -/
theorem C9_level_bounds_heights_and_delete_severs {s : SkipList} (hs : Reachable s) :
    (∀ id ∈ s.levelIds 0, s.heightOf id ≤ s.level) ∧
    (∀ (k : Int) (nid : Nat), nid ∈ s.levelIds 0 → s.keyAt nid = k →
      (s.delete k).1 = true ∧
      (∀ i, (s.delete k).2.forwardAt .head i ≠ some nid) ∧
      (∀ id ∈ (s.delete k).2.levelIds 0, ∀ i,
        (s.delete k).2.forwardAt (.node id) i ≠ some nid)) := by
  obtain ⟨live, hrep⟩ := reachable_rep hs
  have hlive : s.levelIds 0 = live := by
    rw [levelIds_eq hrep 0, filterLevel_zero]
  constructor
  · intro id hid
    rw [hlive] at hid
    rw [hrep.levelEq]
    exact le_maxH_of_mem hid
  · intro k nid hnid hkey
    rw [hlive] at hnid
    have hfs : (live.find? (fun id => decide (s.keyAt id = k))).isSome = true :=
      (find?_isSome_iff s live k).mpr ⟨nid, hnid, hkey⟩
    obtain ⟨m, hf⟩ := Option.isSome_iff_exists.mp hfs
    have hm : m = nid := key_unique hrep (List.mem_of_find?_eq_some hf) hnid
      (by rw [hkey]; simpa using List.find?_some hf)
    rw [hm] at hf
    obtain ⟨htrue, B', hrl, hsplit, hrep', hnotin, hkeys, hvals, hhts, hnlen, hml,
      hhl, hlen⟩ := delete_found_spec hrep hf
    refine ⟨htrue, ?_, ?_⟩
    · intro i hcon
      exact hnotin (rep_forward_head_mem hrep' i nid hcon)
    · intro id hid i hcon
      rw [levelIds_eq hrep' 0, filterLevel_zero] at hid
      exact hnotin (rep_forward_node_mem hrep' hid i nid hcon)

theorem C9_witness :
    ((((mkSkipList 2).insert 5 (some 1) (fun _ => true)).delete 5).1 = true) ∧
    ((((mkSkipList 2).insert 5 (some 1) (fun _ => true)).delete 5).2.forwardAt
        Pos.head 0 ≠ some 0) :=
  ⟨((C9_level_bounds_heights_and_delete_severs
      (Reachable.ins 5 (some 1) (fun _ => true) (Reachable.init 2))).2 5 0
      (by decide) (by decide)).1,
   ((C9_level_bounds_heights_and_delete_severs
      (Reachable.ins 5 (some 1) (fun _ => true) (Reachable.init 2))).2 5 0
      (by decide) (by decide)).2.1 0⟩
